import Mathlib

/-!
# Verification of the TradingAgents-CN orchestration and data plane

This file gives a shallow embedding, in Lean 4, of the cache layer, the
circuit breaker and retry-delay logic, the smart-TTL policy, the parallel
analyst merge, the message-log update semantics, the web parameter
validation and the Toolkit configuration sharing of the TradingAgents-CN
code base, and proves (or refutes) the specified properties of each.

Conventions used throughout:
* Python `dict`s are modelled as association lists (`List (String × β)`)
  with insertion-order semantics: lookup returns the first matching
  binding, assignment replaces the binding in place, deletion removes it.
* Wall-clock instants (`datetime.now()`) are modelled as integer second
  counts, passed explicitly to every operation that reads the clock.
* Python `float`s are modelled as rationals (`ℚ`); the properties proved
  about them are inequalities and exact closed forms that are stable
  under this idealisation.
* Cached payloads are a type parameter `α`.
-/

/-- Association-list lookup: first binding wins, as for a Python `dict`. -/

def lookupKey {β : Type _} (l : List (String × β)) (k : String) : Option β :=
  match l with
  | [] => none
  | p :: rest => if p.1 = k then some p.2 else lookupKey rest k

/-- Association-list deletion (`del d[k]`): removes the binding of `k`. -/
def eraseKey {β : Type _} (l : List (String × β)) (k : String) : List (String × β) :=
  match l with
  | [] => []
  | p :: rest => if p.1 = k then rest else p :: eraseKey rest k

/-- Association-list assignment (`d[k] = v`): replaces the binding of `k`
in place if present (preserving its position, as a Python dict does), and
appends it otherwise. -/
def setKey {β : Type _} (l : List (String × β)) (k : String) (v : β) :
    List (String × β) :=
  match l with
  | [] => [(k, v)]
  | p :: rest => if p.1 = k then (k, v) :: rest else p :: setKey rest k v

/-- `CacheEntry` from `unified_cache_manager.py`: one cached value, its
creation instant, its TTL and its metadata. `metadata` is the dict
`{"data_type": …, "namespace": …}` built by `UnifiedCacheManager.set`. -/
structure CacheEntry (α : Type) where
  key : String
  data : α
  createdAt : Int
  ttlSeconds : Int
  metadata : List (String × String)
deriving DecidableEq, Repr

/-- `CacheEntry.is_expired`: an entry with `ttl_seconds <= 0` never
expires, otherwise it is expired once `now > created_at + ttl_seconds`. -/
def CacheEntry.isExpired {α : Type} (e : CacheEntry α) (now : Int) : Bool :=
  if e.ttlSeconds ≤ 0 then false else decide (e.createdAt + e.ttlSeconds < now)

/-- `MemoryCacheBackend`: a dict of entries, the `max_size` bound and the
LRU recency list `_access_order` (least-recently-used first). -/
structure MemoryCacheBackend (α : Type) where
  cache : List (String × CacheEntry α)
  maxSize : Nat
  accessOrder : List String
deriving DecidableEq, Repr

namespace MemoryCacheBackend

variable {α : Type}

/-- `MemoryCacheBackend._update_access_order`: move `key` to the
most-recently-used end of the recency list. -/
def updateAccessOrder (k : String) (ord : List String) : List String :=
  ord.erase k ++ [k]

/-- `MemoryCacheBackend.delete`: drop the key from the dict and the
recency list; returns whether the key was present. -/
def delete (b : MemoryCacheBackend α) (k : String) : Bool × MemoryCacheBackend α :=
  if (lookupKey b.cache k).isSome then
    (true, { b with cache := eraseKey b.cache k, accessOrder := b.accessOrder.erase k })
  else
    (false, b)

/-- `MemoryCacheBackend._cleanup_expired`: collect the expired keys, then
delete each. -/
def cleanupExpired (b : MemoryCacheBackend α) (now : Int) : MemoryCacheBackend α :=
  let expiredKeys := (b.cache.filter (fun p => p.2.isExpired now)).map Prod.fst
  expiredKeys.foldl (fun acc k => (delete acc k).2) b

/-- `MemoryCacheBackend.get`: purge expired entries, then return the live
entry for `k` (promoting it to most-recently-used) or `none`. -/
def get (b : MemoryCacheBackend α) (now : Int) (k : String) :
    Option (CacheEntry α) × MemoryCacheBackend α :=
  match lookupKey (cleanupExpired b now).cache k with
  | some e =>
    if ¬e.isExpired now then
      (some e, { cleanupExpired b now with
                   accessOrder := updateAccessOrder k (cleanupExpired b now).accessOrder })
    else
      (none, (delete (cleanupExpired b now) k).2)
  | none => (none, cleanupExpired b now)

/-- The `while len(self.cache) > self.max_size` loop of
`MemoryCacheBackend._enforce_size_limit`, fused with the `self.delete`
it performs on each popped head of the recency list. -/
def enforceLoop (max : Nat) (cache : List (String × CacheEntry α)) (ord : List String) :
    List (String × CacheEntry α) × List String :=
  if cache.length ≤ max then (cache, ord)
  else
    match ord with
    | [] => (cache, ord)
    | o :: rest =>
      if (lookupKey cache o).isSome then enforceLoop max (eraseKey cache o) (rest.erase o)
      else enforceLoop max cache rest
termination_by ord.length
decreasing_by
  · exact Nat.lt_succ_of_le (List.erase_sublist o rest).length_le
  · exact Nat.lt_succ_self rest.length

/-- `MemoryCacheBackend.set`: store the entry, mark it most recently
used, then enforce the LRU size bound. -/
def set (b : MemoryCacheBackend α) (k : String) (e : CacheEntry α) :
    Bool × MemoryCacheBackend α :=
  let cache1 := setKey b.cache k e
  let ord1 := updateAccessOrder k b.accessOrder
  let r := enforceLoop b.maxSize cache1 ord1
  (true, { b with cache := r.1, accessOrder := r.2 })

/-- Well-formedness of a memory backend state, maintained by every
operation: the dict has no duplicate keys, the recency list has no
duplicates, and the recency list holds exactly the cached keys. -/
def WF (b : MemoryCacheBackend α) : Prop :=
  (b.cache.map Prod.fst).Nodup ∧ b.accessOrder.Nodup ∧
    List.Perm (b.cache.map Prod.fst) b.accessOrder

instance (b : MemoryCacheBackend α) : Decidable (WF b) := by
  unfold WF; infer_instance

/-- The observable content of a backend: the entry stored at `k`, if it
is present and live at instant `now`. -/
def liveLookup (b : MemoryCacheBackend α) (now : Int) (k : String) :
    Option (CacheEntry α) :=
  match lookupKey b.cache k with
  | some e => if e.isExpired now then none else some e
  | none => none

end MemoryCacheBackend

/-- Stable insertion of a parameter into a key-sorted parameter list,
used to model Python `sorted(kwargs.items())` (kwargs keys are unique,
so sorting by key alone agrees with sorting the pairs). -/
def insertParamSorted (p : String × String) :
    List (String × String) → List (String × String)
  | [] => [p]
  | q :: rest => if p.1 ≤ q.1 then p :: q :: rest else q :: insertParamSorted p rest

/-- `sorted(kwargs.items())` as an insertion sort over the key order. -/
def sortParams (l : List (String × String)) : List (String × String) :=
  l.foldr insertParamSorted []

/-- `UnifiedCacheManager._get_cache_key`: composite key
`namespace:key[:k1=v1&k2=v2…]` with the extra params sorted by name. -/
def getCacheKey (ns k : String) (extras : List (String × String)) : String :=
  match extras with
  | [] => ns ++ ":" ++ k
  | _ =>
    let paramsStr :=
      String.intercalate "&" ((sortParams extras).map (fun p => p.1 ++ "=" ++ p.2))
    ns ++ ":" ++ k ++ ":" ++ paramsStr

/-- `UnifiedCacheManager`, restricted to the configuration in which every
initialised backend is a `MemoryCacheBackend` (the file backend realises
the same key→entry store through an on-disk index; its I/O is outside
this embedding). `backends` is the manager's name→backend dict,
`primaryBackend` and `fallbackBackends` come from the cache config, and
`defaultTTL` is the config's `default_ttl` dict. -/
structure UnifiedCacheManager (α : Type) where
  backends : List (String × MemoryCacheBackend α)
  primaryBackend : String
  fallbackBackends : List String
  defaultTTL : List (String × Int)
deriving DecidableEq, Repr

namespace UnifiedCacheManager

variable {α : Type}

/-- The `default_ttl` dict of `_load_cache_config` when the main config
has no `cache` section (there is no `config/main_config.json` in the
repository and `DEFAULT_CONFIG` has no `cache` key, so this is the
operative configuration). -/
def defaultTTLConfig : List (String × Int) :=
  [("stock_data", 3600), ("news_data", 1800), ("fundamentals", 86400),
   ("market_data", 300)]

/-- `UnifiedCacheManager._get_ttl`: TTL for a data type, defaulting to
3600 seconds. -/
def getTTL (m : UnifiedCacheManager α) (dataType : String) : Int :=
  (lookupKey m.defaultTTL dataType).getD 3600

/-- Replace one named backend in the manager's backend dict. -/
def updateBackend (m : UnifiedCacheManager α) (name : String)
    (b : MemoryCacheBackend α) : UnifiedCacheManager α :=
  { m with backends := setKey m.backends name b }

/-- `UnifiedCacheManager.set`: build the entry (computing the TTL from
`data_type` when `ttl_seconds` is omitted) and write it to the primary
backend only. -/
def setEntry (now : Int) (ns k : String) (data : α) (dataType : String)
    (ttl : Int) (extras : List (String × String)) : CacheEntry α :=
  ⟨getCacheKey ns k extras, data, now, ttl, [("data_type", dataType), ("namespace", ns)]⟩

def set (m : UnifiedCacheManager α) (now : Int) (ns k : String) (data : α)
    (dataType : String) (ttl? : Option Int) (extras : List (String × String)) :
    Bool × UnifiedCacheManager α :=
  match lookupKey m.backends m.primaryBackend with
  | some b =>
    let r := MemoryCacheBackend.set b (getCacheKey ns k extras)
      (setEntry now ns k data dataType (ttl?.getD (m.getTTL dataType)) extras)
    (r.1, m.updateBackend m.primaryBackend r.2)
  | none => (false, m)

/-- The fallback loop of `UnifiedCacheManager.get`: probe each fallback
backend in configured order; on the first hit, promote the payload into
the primary via `UnifiedCacheManager.set` (with the entry's TTL and the
default data type) and return it. -/
def getFallback (m : UnifiedCacheManager α) (now : Int) (ns k : String)
    (extras : List (String × String)) (ck : String) :
    List String → Option α × UnifiedCacheManager α
  | [] => (none, m)
  | name :: rest =>
    match lookupKey m.backends name with
    | none => getFallback m now ns k extras ck rest
    | some b =>
      match MemoryCacheBackend.get b now ck with
      | (some e, b1) =>
        (some e.data,
          (set (m.updateBackend name b1) now ns k e.data "default"
            (some e.ttlSeconds) extras).2)
      | (none, b1) => getFallback (m.updateBackend name b1) now ns k extras ck rest

/-- `UnifiedCacheManager.get`: probe the primary backend, then the
fallbacks in order (with read-through promotion on a fallback hit). -/
def get (m : UnifiedCacheManager α) (now : Int) (ns k : String)
    (extras : List (String × String)) : Option α × UnifiedCacheManager α :=
  match lookupKey m.backends m.primaryBackend with
  | some b =>
    match MemoryCacheBackend.get b now (getCacheKey ns k extras) with
    | (some e, b1) =>
      (some e.data, m.updateBackend m.primaryBackend b1)
    | (none, b1) =>
      getFallback (m.updateBackend m.primaryBackend b1) now ns k extras
        (getCacheKey ns k extras) m.fallbackBackends
  | none =>
    getFallback m now ns k extras (getCacheKey ns k extras) m.fallbackBackends

/-- `UnifiedCacheManager.delete`: broadcast the deletion to every
configured backend; the result is `True` only if every backend reported
a deletion. -/
def delete (m : UnifiedCacheManager α) (ns k : String)
    (extras : List (String × String)) : Bool × UnifiedCacheManager α :=
  let ck := getCacheKey ns k extras
  let ok := m.backends.all (fun p => (MemoryCacheBackend.delete p.2 ck).1)
  let backends1 := m.backends.map (fun p => (p.1, (MemoryCacheBackend.delete p.2 ck).2))
  (ok, { m with backends := backends1 })

/-- The first live entry for `ck` among the configured fallback backends,
in their configured order, read on the manager state `m`.  This is the
specification-level description of what the fallback loop finds. -/
def fallbackLive (m : UnifiedCacheManager α) (now : Int) (ck : String) :
    List String → Option (CacheEntry α)
  | [] => none
  | name :: rest =>
    match lookupKey m.backends name with
    | none => fallbackLive m now ck rest
    | some b =>
      match MemoryCacheBackend.liveLookup b now ck with
      | some e => some e
      | none => fallbackLive m now ck rest

end UnifiedCacheManager

/-- The E5 scenario manager: primary backend `memory` with `max_size = 2`,
no fallbacks, default TTL configuration. -/
def e5Manager : UnifiedCacheManager Nat :=
  ⟨[("memory", ⟨[], 2, []⟩)], "memory", [], UnifiedCacheManager.defaultTTLConfig⟩

/-- The E5 scenario state after
`set(ns,"a",1); set(ns,"b",2); get(ns,"a"); set(ns,"c",3)`. -/
def e5Final : UnifiedCacheManager Nat :=
  ((((e5Manager.set 0 "ns" "a" 1 "default" none []).2.set 0 "ns" "b" 2 "default" none
    []).2.get 0 "ns" "a" []).2.set 0 "ns" "c" 3 "default" none []).2

/-- The manager configuration actually produced by `_load_cache_config`
with no `cache` key in the main config: a memory and a file backend (the
file backend also modelled as a key→entry store), primary `file`,
fallback `[memory]`, and the hard-coded `default_ttl` dict. -/
def defaultConfigManager : UnifiedCacheManager Nat :=
  ⟨[("memory", ⟨[], 1000, []⟩), ("file", ⟨[], 1000, []⟩)], "file", ["memory"],
    UnifiedCacheManager.defaultTTLConfig⟩

/-- `CircuitBreakerState`: the three states of the breaker. -/
inductive CircuitBreakerState where
  | closed
  | opened
  | halfOpen
deriving DecidableEq, Repr

/-- `CircuitBreakerConfig`: failure threshold, recovery timeout (seconds)
and minimum request count before the breaker may trip. -/
structure CircuitBreakerConfig where
  failureThreshold : Nat
  recoveryTimeout : Int
  minRequests : Nat
deriving DecidableEq, Repr

/-- The mutable state of a `CircuitBreaker` instance. -/
structure CircuitBreaker where
  state : CircuitBreakerState
  failureCount : Nat
  successCount : Nat
  requestCount : Nat
  lastFailureTime : Option Int
deriving DecidableEq, Repr

namespace CircuitBreaker

variable {α : Type}

/-- The initial breaker state built by `CircuitBreaker.__init__`. -/
def initial : CircuitBreaker := ⟨CircuitBreakerState.closed, 0, 0, 0, none⟩

/-- `CircuitBreaker._should_attempt_reset`: true when there was no
failure yet, or at least `recovery_timeout` seconds passed since the
last one. -/
def shouldAttemptReset (cfg : CircuitBreakerConfig) (cb : CircuitBreaker)
    (now : Int) : Bool :=
  match cb.lastFailureTime with
  | none => true
  | some t => decide (cfg.recoveryTimeout ≤ now - t)

/-- `CircuitBreaker._on_success`: count the success; in HalfOpen, close
the breaker and reset the failure counter (only that counter). -/
def onSuccess (cb : CircuitBreaker) : CircuitBreaker :=
  let cb1 := { cb with successCount := cb.successCount + 1 }
  if cb1.state = CircuitBreakerState.halfOpen then
    { cb1 with state := CircuitBreakerState.closed, failureCount := 0 }
  else cb1

/-- `CircuitBreaker._on_failure`: count the failure and stamp the time;
once `request_count >= min_requests`, a HalfOpen failure reopens the
breaker, and a Closed state with `failure_count >= failure_threshold`
opens it. -/
def onFailure (cfg : CircuitBreakerConfig) (cb : CircuitBreaker) (now : Int) :
    CircuitBreaker :=
  let cb1 := { cb with failureCount := cb.failureCount + 1, lastFailureTime := some now }
  if cfg.minRequests ≤ cb1.requestCount then
    if cb1.state = CircuitBreakerState.halfOpen then
      { cb1 with state := CircuitBreakerState.opened }
    else if cb1.state = CircuitBreakerState.closed ∧
        cfg.failureThreshold ≤ cb1.failureCount then
      { cb1 with state := CircuitBreakerState.opened }
    else cb1
  else cb1

/-- Outcome of one `CircuitBreaker.call`: the call was rejected without
invoking the wrapped function, or the function ran and succeeded/failed. -/
inductive CallOutcome where
  | rejected
  | succeeded
  | failed
deriving DecidableEq, Repr

/-- `CircuitBreaker.call` at instant `now`, driving a function whose
outcome is `funcSucceeds`: an Open breaker either rejects the call or
(after the recovery timeout) moves to HalfOpen and admits it; every
admitted call increments `request_count` and then runs the function. -/
def call (cfg : CircuitBreakerConfig) (cb : CircuitBreaker) (now : Int)
    (funcSucceeds : Bool) : CallOutcome × CircuitBreaker :=
  if cb.state = CircuitBreakerState.opened ∧ ¬shouldAttemptReset cfg cb now then
    (CallOutcome.rejected, cb)
  else
    let cb1 :=
      if cb.state = CircuitBreakerState.opened then
        { cb with state := CircuitBreakerState.halfOpen }
      else cb
    let cb2 := { cb1 with requestCount := cb1.requestCount + 1 }
    if funcSucceeds then (CallOutcome.succeeded, onSuccess cb2)
    else (CallOutcome.failed, onFailure cfg cb2 now)

/-- A run of consecutive calls that all fail, at the given instants. -/
def failCalls (cfg : CircuitBreakerConfig) (ts : List Int) (cb : CircuitBreaker) :
    CircuitBreaker :=
  ts.foldl (fun c t => (call cfg c t false).2) cb

/-- The last failure stamp after a run of failing calls starting from
stamp `lft`. -/
def lastTime (ts : List Int) (lft : Option Int) : Option Int :=
  ts.foldl (fun _ t => some t) lft

end CircuitBreaker

/-- `RetryStrategy` from `enhanced_error_handling.py`. -/
inductive RetryStrategy where
  | fixedDelay
  | exponentialBackoff
  | linearBackoff
  | fibonacciBackoff
deriving DecidableEq, Repr

/-- `RetryConfig` (floats modelled as rationals). -/
structure RetryConfig where
  maxAttempts : Nat
  strategy : RetryStrategy
  baseDelay : ℚ
  maxDelay : ℚ
  jitter : Bool
  backoffMultiplier : ℚ
deriving DecidableEq, Repr

/-- The append loop of `EnhancedRetryHandler._fibonacci_sequence`: each
iteration appends the sum of the last two elements. -/
def fibLoop (fuel : Nat) (seq : List Nat) : List Nat :=
  match fuel with
  | 0 => seq
  | f + 1 =>
    fibLoop f (seq ++ [seq.getD (seq.length - 1) 0 + seq.getD (seq.length - 2) 0])

/-- `EnhancedRetryHandler._fibonacci_sequence`. -/
def fibonacciSequence (n : Nat) : List Nat :=
  if n = 0 then []
  else if n = 1 then [1]
  else if n = 2 then [1, 1]
  else fibLoop (n - 2) [1, 1]

/-- `EnhancedRetryHandler._calculate_delay` at attempt `n`, where `r` is
the value drawn by `random.random()` (in `[0, 1)`) when jitter is on. -/
def calculateDelay (cfg : RetryConfig) (attempt : Nat) (r : ℚ) : ℚ :=
  let delay :=
    match cfg.strategy with
    | RetryStrategy.fixedDelay => cfg.baseDelay
    | RetryStrategy.exponentialBackoff =>
      cfg.baseDelay * cfg.backoffMultiplier ^ (attempt - 1)
    | RetryStrategy.linearBackoff => cfg.baseDelay * (attempt : ℚ)
    | RetryStrategy.fibonacciBackoff =>
      cfg.baseDelay * (((fibonacciSequence (attempt + 1)).getD attempt 0 : Nat) : ℚ)
  let clamped := min delay cfg.maxDelay
  if cfg.jitter then clamped * (1 / 2 + r * (1 / 2)) else clamped

/-- Modelled from the spec: fib with fib(1) = fib(2) = 1, shifted so
that `fibSpec i` is the (i+1)-st Fibonacci number — the delay factor the
spec assigns to attempt `i` is `fibSpec i`. -/
def fibSpec : Nat → Nat
  | 0 => 1
  | 1 => 1
  | n + 2 => fibSpec (n + 1) + fibSpec n

/-- Modelled from the spec: the per-strategy delay formula table of §4.B
(before clamping and jitter). -/
def specDelayFormula (cfg : RetryConfig) (n : Nat) : ℚ :=
  match cfg.strategy with
  | RetryStrategy.fixedDelay => cfg.baseDelay
  | RetryStrategy.exponentialBackoff => cfg.baseDelay * cfg.backoffMultiplier ^ (n - 1)
  | RetryStrategy.linearBackoff => cfg.baseDelay * (n : ℚ)
  | RetryStrategy.fibonacciBackoff => cfg.baseDelay * (fibSpec n : ℚ)

/-- Python `s.endswith(suffix)`, modelled on the character lists of the
two strings (kernel-evaluable, unlike `String.endsWith`). -/
def strEndsWith (s suffix : String) : Bool :=
  suffix.data.isSuffixOf s.data

/-- One analyst's returned update dict, as consumed by
`ParallelAnalystsExecutor._merge_analyst_results`: the optional
`messages` entry and the remaining (string-valued) entries in dict
order. Messages are opaque values of type `μ`. -/
structure AnalystResult (μ : Type) where
  messages : Option (List μ)
  fields : List (String × String)
deriving DecidableEq, Repr

/-- The merged state: the `messages` list and the other keys of the
state dict (looked up by name). -/
structure MergeState (μ : Type) where
  messages : List μ
  slots : String → Option String

/-- `merged_state[key] = value`. -/
def setSlot (s : String → Option String) (k v : String) : String → Option String :=
  fun k' => if k' = k then some v else s k'

/-- The three extra keys `_merge_analyst_results` copies when present. -/
def specialKeys : List String := ["sender", "last_update", "analysis_timestamp"]

/-- The per-result merge body of `_merge_analyst_results`: assign every
`*_report` field with a truthy value, then copy `sender`, `last_update`
and `analysis_timestamp` when present. -/
def mergeFields {μ : Type} (s : String → Option String) (r : AnalystResult μ) :
    String → Option String :=
  let s1 := r.fields.foldl
    (fun acc kv =>
      if strEndsWith kv.1 "_report" ∧ kv.2 ≠ "" then setSlot acc kv.1 kv.2 else acc) s
  specialKeys.foldl
    (fun acc key =>
      match lookupKey r.fields key with
      | some v => setSlot acc key v
      | none => acc) s1

/-- `ParallelAnalystsExecutor._merge_analyst_results`: `results` is the
role→result dict in completion order; `None` results are skipped; all
returned `messages` are concatenated onto the original list. -/
def mergeAnalystResults {μ : Type} (orig : MergeState μ)
    (results : List (String × Option (AnalystResult μ))) : MergeState μ :=
  let allMessages := results.foldl
    (fun acc rr =>
      match rr.2 with
      | none => acc
      | some r =>
        match r.messages with
        | some ms => acc ++ ms
        | none => acc) orig.messages
  let slots := results.foldl
    (fun acc rr =>
      match rr.2 with
      | none => acc
      | some r => mergeFields acc r) orig.slots
  ⟨allMessages, slots⟩

/-- The messages a result contributes to the merge. -/
def resultMessages {μ : Type} (rr : String × Option (AnalystResult μ)) : List μ :=
  match rr.2 with
  | none => []
  | some r => r.messages.getD []

/-- The report value for `key` written by the latest non-`None` result
that provides a non-empty `key` field (later results win). -/
def lastReportWrite {μ : Type} (results : List (String × Option (AnalystResult μ)))
    (key : String) : Option String :=
  results.foldl
    (fun acc rr =>
      match rr.2 with
      | none => acc
      | some r =>
        match lookupKey r.fields key with
        | some v => if v ≠ "" then some v else acc
        | none => acc) none

/-- The value for a special key (`sender`, …) provided by the latest
non-`None` result that has it. -/
def lastFieldWrite {μ : Type} (results : List (String × Option (AnalystResult μ)))
    (key : String) : Option String :=
  results.foldl
    (fun acc rr =>
      match rr.2 with
      | none => acc
      | some r =>
        match lookupKey r.fields key with
        | some v => some v
        | none => acc) none

/-- A message in the shared state's log, identified by its id. -/
structure StoredMessage where
  id : Nat
  content : String
deriving DecidableEq, Repr

/-- One element of a node's `messages` update: a normal message to add,
or a `RemoveMessage(id=…)` marker. -/
inductive MessageOp where
  | addMsg (id : Nat) (content : String)
  | removeMsg (id : Nat)
deriving DecidableEq, Repr

/-- Modelled from the spec: the driver folds a node's `messages` update
into the shared log (§4.H "Updates are merge-by-field: `messages` is
appended"), and the message-cleaning node's `RemoveMessage` operations
"remove pre-analyst intermediate messages" (§4.H, node `C_i`).  The
reducer itself (langgraph's `add_messages`) is external to the
repository: an add with a fresh id appends, an add with an existing id
replaces that entry, and a removal deletes the entry with that id. -/
def applyMessageOps (log : List StoredMessage) (ops : List MessageOp) :
    List StoredMessage :=
  ops.foldl
    (fun l op =>
      match op with
      | MessageOp.addMsg i c =>
        if l.any (fun m => m.id = i) then
          l.map (fun m => if m.id = i then ⟨i, c⟩ else m)
        else l ++ [⟨i, c⟩]
      | MessageOp.removeMsg i => l.filter (fun m => m.id ≠ i)) log

/-- `create_msg_delete`'s `delete_messages`: a `RemoveMessage` for every
message currently in the state, followed by the placeholder
`HumanMessage(content="Continue")`. -/
def deleteMessagesUpdate (msgs : List StoredMessage) (placeholderId : Nat) :
    List MessageOp :=
  msgs.map (fun m => MessageOp.removeMsg m.id) ++
    [MessageOp.addMsg placeholderId "Continue"]

/-- Fuel-bounded glob matcher for `fnmatch.fnmatch` restricted to the
wildcards actually occurring in the registered rules (`*` and `?`;
none of the rules uses a `[...]` class).  `fuel` bounds the recursion;
`pattern.length + string.length + 1` always suffices, which is what
`fnmatchB` passes. -/
def globMatchAux : Nat → List Char → List Char → Bool
  | 0, _, _ => false
  | _ + 1, [], s => s.isEmpty
  | fuel + 1, p :: ps, s =>
    if p = '*' then
      globMatchAux fuel ps s ||
        (match s with
         | [] => false
         | _ :: cs => globMatchAux fuel (p :: ps) cs)
    else
      match s with
      | [] => false
      | c :: cs => (p = '?' || p = c) && globMatchAux fuel ps cs

/-- `fnmatch.fnmatch(s, pattern)` for the patterns used by the TTL rules. -/
def fnmatchB (s pattern : String) : Bool :=
  globMatchAux (pattern.data.length + s.data.length + 1) pattern.data s.data

/-- `SmartTTLRule` dataclass: glob pattern, base TTL (s), access-frequency
factor, time-decay factor (defaulted, unused by `_calculate_smart_ttl`),
and the TTL clamp bounds (defaults 86400 / 60). -/
structure SmartTTLRule where
  pattern : String
  baseTtl : Int
  accessFactor : ℚ
  timeDecay : ℚ
  maxTtl : Int
  minTtl : Int
deriving DecidableEq, Repr

/-- The six rules registered by `_init_default_ttl_rules`, in order;
`time_decay`, `max_ttl` and `min_ttl` keep their dataclass defaults. -/
def defaultTTLRules : List SmartTTLRule :=
  [⟨"market_data:*", 300, 3/2, 9/10, 86400, 60⟩,
   ⟨"capital_flow:*", 600, 6/5, 9/10, 86400, 60⟩,
   ⟨"concept_data:*", 1800, 1, 9/10, 86400, 60⟩,
   ⟨"dividend_data:*", 3600, 4/5, 9/10, 86400, 60⟩,
   ⟨"stock_data:*", 1800, 13/10, 9/10, 86400, 60⟩,
   ⟨"news_data:*", 900, 2, 9/10, 86400, 60⟩]

/-- Python `int()` applied to a float: truncation toward zero. -/
def pyTrunc (q : ℚ) : Int :=
  if q < 0 then -Rat.floor (-q) else Rat.floor q

/-- `EnhancedCacheManager._calculate_smart_ttl`.  `accessPatterns` is
`metrics.access_patterns` (composite key ↦ recorded access times, in
seconds), `now` is the wall clock, and `baseTtl` models the optional
`base_ttl` argument (Python's `base_ttl or 3600` also sends `0` to
`3600`).  The nested `if access_times: if recent_accesses > 0:` guards,
whose only effect is the reassignment of `calculated_ttl`, are rendered
as one conjoined condition. -/
def calculateSmartTTL (rules : List SmartTTLRule)
    (accessPatterns : List (String × List Int)) (now : Int)
    (ns k : String) (baseTtl : Option Int) : Int :=
  match rules.find? (fun r => fnmatchB (ns ++ ":" ++ k) r.pattern) with
  | none => if baseTtl.getD 0 = 0 then 3600 else baseTtl.getD 0
  | some rule =>
    max rule.minTtl (min
      (if (lookupKey accessPatterns (ns ++ ":" ++ k)).getD [] ≠ [] ∧
          0 < (((lookupKey accessPatterns (ns ++ ":" ++ k)).getD []).filter
                (fun t => now - 1800 < t)).length then
        pyTrunc ((rule.baseTtl : ℚ) *
          min (((((lookupKey accessPatterns (ns ++ ":" ++ k)).getD []).filter
                  (fun t => now - 1800 < t)).length : ℚ) * rule.accessFactor / 10) 3)
      else rule.baseTtl)
      rule.maxTtl)

/-- The spec's stated formula, written from the spec's words for
comparison with `calculateSmartTTL`:
`clamp(base_ttl × min(accesses_last_30min × access_factor / 10, 3.0),
min_ttl, max_ttl)`, applied for every recent-access count including
zero. -/
def specSmartTTLFormula (rule : SmartTTLRule) (recent : Nat) : Int :=
  max rule.minTtl (min
    (pyTrunc ((rule.baseTtl : ℚ) * min ((recent : ℚ) * rule.accessFactor / 10) 3))
    rule.maxTtl)

/-- Whitespace for Python's `str.strip()` (the characters that can occur
in ticker input). -/
def isPySpace (c : Char) : Bool :=
  c == ' ' || c == '\t' || c == '\n' || c == '\r'

/-- Python `str.strip()`. -/
def pyStrip (s : List Char) : List Char :=
  ((s.dropWhile isPySpace).reverse.dropWhile isPySpace).reverse

/-- The regex `^\d{6}$` (A-share format). -/
def cnAShareFormat (s : List Char) : Bool :=
  s.length == 6 && s.all Char.isDigit

/-- The regex `^\d{4,5}\.HK$` (HK suffixed format, applied to the
upper-cased symbol). -/
def hkSuffixFormat (s : List Char) : Bool :=
  (s.length == 7 || s.length == 8) &&
    (s.take (s.length - 3)).all Char.isDigit &&
    s.drop (s.length - 3) == ['.', 'H', 'K']

/-- The regex `^\d{4,5}$` (bare HK digit format). -/
def hkDigitFormat (s : List Char) : Bool :=
  (s.length == 4 || s.length == 5) && s.all Char.isDigit

/-- The regex `^[A-Z]{1,5}$` (US format, applied to the upper-cased
symbol). -/
def usTickerFormat (s : List Char) : Bool :=
  decide (1 ≤ s.length) && decide (s.length ≤ 5) && s.all Char.isUpper

/-- The allowed analyst identifiers (`valid_analysts`). -/
def validAnalysts : List String := ["market", "social", "news", "fundamentals"]

/-- `validate_analysis_params(stock_symbol, analysis_date, analysts,
research_depth, market_type)`.  `dateValid` models the
`datetime.strptime(analysis_date, "%Y-%m-%d")` success (the parser is
library code external to the repository); `researchDepth : Int` models
the `isinstance(research_depth, int)` case.  The branch structure is
kept exactly as written in the source — in particular the second,
duplicated `elif market_type == "A股":` guard in front of the US-format
check. -/
def validateAnalysisParams (stockSymbol : String) (dateValid : Bool)
    (analysts : List String) (researchDepth : Int) (marketType : String) :
    Bool × List String :=
  let symbol := pyStrip stockSymbol.data
  let symbolErrors : List String :=
    if stockSymbol.data = [] ∨ symbol.length = 0 then ["股票代码不能为空"]
    else if symbol.length > 10 then ["股票代码长度不能超过10个字符"]
    else if marketType = "A股" then
      if cnAShareFormat symbol then []
      else ["A股代码格式错误，应为6位数字（如：002115）"]
    else if marketType = "港股" then
      if hkSuffixFormat (symbol.map Char.toUpper) || hkDigitFormat symbol then []
      else ["港股代码格式错误，应为4位数字.HK（如：0700.HK）或4位数字（如：0700）"]
    else if marketType = "A股" then
      if usTickerFormat (symbol.map Char.toUpper) then []
      else ["美股代码格式错误，应为1-5位字母（如：AAPL）"]
    else []
  let analystEmptyErrors : List String :=
    if analysts = [] then ["必须至少选择一个分析师"] else []
  let invalidAnalysts := analysts.filter (fun a => !(validAnalysts.contains a))
  let invalidAnalystErrors : List String :=
    if invalidAnalysts = [] then []
    else ["无效的分析师类型: " ++ String.intercalate ", " invalidAnalysts]
  let depthErrors : List String :=
    if researchDepth < 1 ∨ researchDepth > 5 then ["研究深度必须是1-5之间的整数"] else []
  let dateErrors : List String :=
    if dateValid then [] else ["分析日期格式无效，应为YYYY-MM-DD格式"]
  let errors :=
    symbolErrors ++ analystEmptyErrors ++ invalidAnalystErrors ++
      depthErrors ++ dateErrors
  (errors.isEmpty, errors)

/-- The process state relevant to `Toolkit`: the single class-level
`_config` dictionary (initialised to `DEFAULT_CONFIG.copy()`) and the
number of constructed instances.  The source's `__init__` stores
nothing on the instance and the `config` property returns
`self._config`, which resolves to the class attribute, so an instance
is fully described by its existence plus the class state. -/
structure ToolkitWorld (α : Type) where
  classConfig : List (String × α)
  instances : Nat
deriving DecidableEq, Repr

/-- Python `dict.update(other)`: bind each key of `other` in order,
replacing in place or appending. -/
def dictUpdate {α : Type} (d other : List (String × α)) :
    List (String × α) :=
  other.foldl (fun d p => setKey d p.1 p.2) d

/-- `Toolkit.update_config(config)` (a classmethod): mutates the
class-level `_config` dict via `cls._config.update(config)`. -/
def toolkitUpdateConfig {α : Type} (w : ToolkitWorld α)
    (config : List (String × α)) : ToolkitWorld α :=
  { w with classConfig := dictUpdate w.classConfig config }

/-- `Toolkit(config=None).__init__`: allocates an instance and, when
`config` is truthy (a non-`None`, non-empty dict), calls the
classmethod `update_config`; it writes no instance attribute. -/
def toolkitInit {α : Type} (w : ToolkitWorld α)
    (config : Option (List (String × α))) : ToolkitWorld α :=
  match config with
  | none => { w with instances := w.instances + 1 }
  | some [] => { w with instances := w.instances + 1 }
  | some (p :: rest) =>
    { toolkitUpdateConfig w (p :: rest) with instances := w.instances + 1 }

/-- The `config` property, read through any instance: returns the
class-level dict, independently of which instance is used. -/
def toolkitConfig {α : Type} (w : ToolkitWorld α) : List (String × α) :=
  w.classConfig

theorem lookupKey_setKey_self {β : Type _} (l : List (String × β)) (k : String) (v : β) :
    lookupKey (setKey l k v) k = some v := by
  induction l with
  | nil => simp [setKey, lookupKey]
  | cons p rest ih =>
    by_cases h : p.1 = k <;> simp [setKey, lookupKey, h, ih]

theorem lookupKey_setKey_ne {β : Type _} (l : List (String × β)) (k k' : String) (v : β)
    (h : k' ≠ k) : lookupKey (setKey l k v) k' = lookupKey l k' := by
  induction l with
  | nil =>
    have : ¬(k = k') := fun hc => h hc.symm
    simp [setKey, lookupKey, this]
  | cons p rest ih =>
    by_cases hp : p.1 = k
    · subst hp
      have h1 : ¬(p.1 = k') := fun hc => h hc.symm
      simp [setKey, lookupKey, h1]
    · simp [setKey, lookupKey, hp, ih]

theorem lookupKey_eraseKey_ne {β : Type _} (l : List (String × β)) (k k' : String)
    (h : k' ≠ k) : lookupKey (eraseKey l k) k' = lookupKey l k' := by
  induction l with
  | nil => simp [eraseKey]
  | cons p rest ih =>
    by_cases hp : p.1 = k
    · subst hp
      have h1 : ¬(p.1 = k') := fun hc => h hc.symm
      simp [eraseKey, lookupKey, h1]
    · simp [eraseKey, lookupKey, hp, ih]

theorem lookupKey_eq_none_of_not_mem {β : Type _} (l : List (String × β)) (k : String)
    (h : k ∉ l.map Prod.fst) : lookupKey l k = none := by
  induction l with
  | nil => simp [lookupKey]
  | cons p rest ih =>
    simp only [List.map_cons, List.mem_cons] at h
    push_neg at h
    have h1 : ¬(p.1 = k) := fun hc => h.1 hc.symm
    simp [lookupKey, h1, ih h.2]

theorem lookupKey_eraseKey_self {β : Type _} (l : List (String × β)) (k : String)
    (hnd : (l.map Prod.fst).Nodup) : lookupKey (eraseKey l k) k = none := by
  induction l with
  | nil => simp [eraseKey, lookupKey]
  | cons p rest ih =>
    simp only [List.map_cons, List.nodup_cons] at hnd
    by_cases hp : p.1 = k
    · subst hp
      simp only [eraseKey, if_pos rfl]
      exact lookupKey_eq_none_of_not_mem rest p.1 hnd.1
    · simp [eraseKey, lookupKey, hp, ih hnd.2]

/-- Keys present after `setKey`. -/
theorem lookupKey_isSome_setKey {β : Type _} (l : List (String × β)) (k k' : String) (v : β) :
    (lookupKey (setKey l k v) k').isSome = ((lookupKey l k').isSome || (k' = k : Bool)) := by
  by_cases h : k' = k
  · subst h; simp [lookupKey_setKey_self]
  · simp [lookupKey_setKey_ne l k k' v h, h]

theorem eraseLengthLe {γ : Type _} [DecidableEq γ] (l : List γ) (a : γ) :
    (l.erase a).length ≤ l.length := by
  induction l with
  | nil => simp
  | cons x rest ih =>
    rw [List.erase_cons]
    split
    · exact Nat.le_succ rest.length
    · simpa using ih

/-!
## Cache layer (`tradingagents/utils/unified_cache_manager.py`)
-/

theorem map_fst_eraseKey {β : Type _} (l : List (String × β)) (k : String) :
    (eraseKey l k).map Prod.fst = (l.map Prod.fst).erase k := by
  induction l with
  | nil => simp [eraseKey]
  | cons p rest ih =>
    by_cases hp : p.1 = k
    · simp [eraseKey, hp, List.erase_cons]
    · simp [eraseKey, hp, List.erase_cons, ih]

theorem map_fst_setKey {β : Type _} (l : List (String × β)) (k : String) (v : β) :
    (setKey l k v).map Prod.fst =
      if (lookupKey l k).isSome then l.map Prod.fst else l.map Prod.fst ++ [k] := by
  induction l with
  | nil => simp [setKey, lookupKey]
  | cons p rest ih =>
    by_cases hp : p.1 = k
    · simp [setKey, lookupKey, hp]
    · simp only [setKey, if_neg hp, lookupKey, List.map_cons, ih]
      split <;> simp

theorem length_eraseKey {β : Type _} (l : List (String × β)) (k : String) :
    (eraseKey l k).length = if (lookupKey l k).isSome then l.length - 1 else l.length := by
  induction l with
  | nil => simp [eraseKey, lookupKey]
  | cons p rest ih =>
    by_cases hp : p.1 = k
    · simp [eraseKey, lookupKey, hp]
    · simp only [eraseKey, if_neg hp, lookupKey, List.length_cons, ih]
      split
      · next h =>
        have : 1 ≤ rest.length := by
          cases rest with
          | nil => simp [lookupKey] at h
          | cons q t => simp
        omega
      · rfl

theorem lookupKey_eq_some_of_mem {β : Type _} (l : List (String × β)) (k : String) (v : β)
    (hnd : (l.map Prod.fst).Nodup) (h : (k, v) ∈ l) : lookupKey l k = some v := by
  induction l with
  | nil => simp at h
  | cons p rest ih =>
    simp only [List.map_cons, List.nodup_cons] at hnd
    rcases List.mem_cons.1 h with h1 | h2
    · rw [← h1]
      simp [lookupKey]
    · have hp : p.1 ≠ k := by
        intro hc
        exact hnd.1 (hc ▸ List.mem_map.2 ⟨(k, v), h2, rfl⟩)
      simp [lookupKey, hp, ih hnd.2 h2]

theorem mem_of_lookupKey_eq_some {β : Type _} (l : List (String × β)) (k : String) (v : β)
    (h : lookupKey l k = some v) : (k, v) ∈ l := by
  induction l with
  | nil => simp [lookupKey] at h
  | cons p rest ih =>
    by_cases hp : p.1 = k
    · simp only [lookupKey, if_pos hp] at h
      have hv : p.2 = v := Option.some.inj h
      have hpkv : p = (k, v) := by
        cases p
        simp_all
      exact hpkv ▸ List.mem_cons_self p rest
    · simp only [lookupKey, if_neg hp] at h
      exact List.mem_cons_of_mem p (ih h)

theorem lookupKey_isSome_iff_mem_keys {β : Type _} (l : List (String × β)) (k : String) :
    (lookupKey l k).isSome ↔ k ∈ l.map Prod.fst := by
  induction l with
  | nil => simp [lookupKey]
  | cons p rest ih =>
    by_cases hp : p.1 = k
    · simp [lookupKey, hp]
    · have hkp : ¬(k = p.1) := fun hc => hp hc.symm
      simp [lookupKey, hp, ih, hkp]

namespace MemoryCacheBackend

variable {α : Type}

theorem delete_maxSize (b : MemoryCacheBackend α) (k : String) :
    ((delete b k).2).maxSize = b.maxSize := by
  unfold delete
  split <;> rfl

theorem delete_WF (b : MemoryCacheBackend α) (k : String) (h : WF b) :
    WF (delete b k).2 := by
  unfold delete
  split
  · refine ⟨?_, ?_, ?_⟩
    · rw [map_fst_eraseKey]
      exact h.1.erase k
    · exact h.2.1.erase k
    · rw [map_fst_eraseKey]
      exact h.2.2.erase k
  · exact h

theorem lookup_delete (b : MemoryCacheBackend α) (k k' : String)
    (hnd : (b.cache.map Prod.fst).Nodup) :
    lookupKey ((delete b k).2).cache k' =
      if k' = k then none else lookupKey b.cache k' := by
  unfold delete
  split
  · by_cases hk : k' = k
    · subst hk
      simp [lookupKey_eraseKey_self _ _ hnd]
    · simp [lookupKey_eraseKey_ne _ _ _ hk, hk]
  · next hns =>
    by_cases hk : k' = k
    · subst hk
      simp only [if_pos rfl]
      exact Option.not_isSome_iff_eq_none.1 hns
    · simp [hk]

theorem delete_length_le (b : MemoryCacheBackend α) (k : String) :
    ((delete b k).2).cache.length ≤ b.cache.length := by
  unfold delete
  split
  · simp only [length_eraseKey]
    split <;> omega
  · exact le_refl _

theorem foldlDelete_WF (ks : List String) (b : MemoryCacheBackend α) (h : WF b) :
    WF (ks.foldl (fun acc k => (delete acc k).2) b) := by
  induction ks generalizing b with
  | nil => exact h
  | cons k0 rest ih => exact ih _ (delete_WF b k0 h)

theorem foldlDelete_maxSize (ks : List String) (b : MemoryCacheBackend α) :
    (ks.foldl (fun acc k => (delete acc k).2) b).maxSize = b.maxSize := by
  induction ks generalizing b with
  | nil => rfl
  | cons k0 rest ih => rw [List.foldl_cons, ih, delete_maxSize]

theorem foldlDelete_length_le (ks : List String) (b : MemoryCacheBackend α) :
    (ks.foldl (fun acc k => (delete acc k).2) b).cache.length ≤ b.cache.length := by
  induction ks generalizing b with
  | nil => exact le_refl _
  | cons k0 rest ih =>
    exact le_trans (ih (delete b k0).2) (delete_length_le b k0)

theorem foldlDelete_lookup (ks : List String) (b : MemoryCacheBackend α) (k : String)
    (h : WF b) :
    lookupKey (ks.foldl (fun acc k => (delete acc k).2) b).cache k =
      if k ∈ ks then none else lookupKey b.cache k := by
  induction ks generalizing b with
  | nil => simp
  | cons k0 rest ih =>
    rw [List.foldl_cons, ih _ (delete_WF b k0 h)]
    by_cases hmem : k ∈ rest
    · simp [hmem]
    · rw [if_neg hmem, lookup_delete b k0 k h.1]
      by_cases hk0 : k = k0
      · simp [hk0]
      · simp [hk0, hmem]

theorem cleanup_WF (b : MemoryCacheBackend α) (now : Int) (h : WF b) :
    WF (cleanupExpired b now) :=
  foldlDelete_WF _ b h

theorem cleanup_maxSize (b : MemoryCacheBackend α) (now : Int) :
    (cleanupExpired b now).maxSize = b.maxSize :=
  foldlDelete_maxSize _ b

theorem cleanup_length_le (b : MemoryCacheBackend α) (now : Int) :
    (cleanupExpired b now).cache.length ≤ b.cache.length :=
  foldlDelete_length_le _ b

theorem mem_expiredKeys_iff (b : MemoryCacheBackend α) (now : Int) (k : String)
    (hnd : (b.cache.map Prod.fst).Nodup) :
    k ∈ (b.cache.filter (fun p => p.2.isExpired now)).map Prod.fst ↔
      ∃ e, lookupKey b.cache k = some e ∧ e.isExpired now := by
  constructor
  · intro hmem
    rcases List.mem_map.1 hmem with ⟨p, hp, hpk⟩
    rcases List.mem_filter.1 hp with ⟨hpmem, hpexp⟩
    refine ⟨p.2, ?_, by simpa using hpexp⟩
    have : p = (k, p.2) := by
      cases p
      simp_all
    exact lookupKey_eq_some_of_mem _ _ _ hnd (this ▸ hpmem)
  · rintro ⟨e, hlook, hexp⟩
    have hmem := mem_of_lookupKey_eq_some _ _ _ hlook
    exact List.mem_map.2 ⟨(k, e), List.mem_filter.2 ⟨hmem, by simpa using hexp⟩, rfl⟩

theorem cleanup_lookup (b : MemoryCacheBackend α) (now : Int) (k : String) (h : WF b) :
    lookupKey (cleanupExpired b now).cache k = liveLookup b now k := by
  unfold cleanupExpired liveLookup
  rw [foldlDelete_lookup _ b k h]
  cases hl : lookupKey b.cache k with
  | none => simp [hl]
  | some e =>
    by_cases hexp : e.isExpired now
    · have hmem := (mem_expiredKeys_iff b now k h.1).2 ⟨e, hl, hexp⟩
      simp [hl, hmem, hexp]
    · have hmem : k ∉ (b.cache.filter (fun p => p.2.isExpired now)).map Prod.fst := by
        intro hm
        rcases (mem_expiredKeys_iff b now k h.1).1 hm with ⟨e', hl', hexp'⟩
        rw [hl] at hl'
        exact hexp (Option.some.inj hl' ▸ hexp')
      simp [hl, hmem, hexp]

theorem liveLookup_cleanup (b : MemoryCacheBackend α) (now : Int) (k : String) (h : WF b) :
    liveLookup (cleanupExpired b now) now k = liveLookup b now k := by
  have hcl := cleanup_lookup b now k h
  unfold liveLookup at hcl ⊢
  rw [hcl]
  cases hl : lookupKey b.cache k with
  | none => simp
  | some e =>
    by_cases hexp : e.isExpired now <;> simp [hexp]

theorem liveLookup_isExpired_false (b : MemoryCacheBackend α) (now : Int) (k : String)
    (e : CacheEntry α) (h : liveLookup b now k = some e) : e.isExpired now = false := by
  unfold liveLookup at h
  cases hl : lookupKey b.cache k with
  | none => simp [hl] at h
  | some e' =>
    rw [hl] at h
    by_cases hx : e'.isExpired now
    · simp [hx] at h
    · simp only [if_neg hx] at h
      cases h
      simpa using hx

theorem get_fst (b : MemoryCacheBackend α) (now : Int) (k : String) (h : WF b) :
    (get b now k).1 = liveLookup b now k := by
  unfold get
  have hcl := cleanup_lookup b now k h
  split
  · next e heq =>
    rw [heq] at hcl
    split
    · next hexp => simpa using hcl
    · next hexp =>
      exfalso
      have := liveLookup_isExpired_false b now k e hcl.symm
      simp [this] at hexp
  · next heq =>
    rw [heq] at hcl
    simpa using hcl

theorem get_maxSize (b : MemoryCacheBackend α) (now : Int) (k : String) :
    ((get b now k).2).maxSize = b.maxSize := by
  unfold get
  split
  · split
    · exact cleanup_maxSize b now
    · rw [delete_maxSize, cleanup_maxSize]
  · exact cleanup_maxSize b now

theorem get_length_le (b : MemoryCacheBackend α) (now : Int) (k : String) :
    ((get b now k).2).cache.length ≤ b.cache.length := by
  unfold get
  split
  · split
    · exact cleanup_length_le b now
    · exact le_trans (delete_length_le _ k) (cleanup_length_le b now)
  · exact cleanup_length_le b now

theorem get_WF (b : MemoryCacheBackend α) (now : Int) (k : String) (h : WF b) :
    WF (get b now k).2 := by
  unfold get
  have hwf1 := cleanup_WF b now h
  split
  · next e heq =>
    split
    · next hexp =>
      have hmem : k ∈ (cleanupExpired b now).accessOrder := by
        have hsome : (lookupKey (cleanupExpired b now).cache k).isSome := by
          simp [heq]
        have hkeys := (lookupKey_isSome_iff_mem_keys (cleanupExpired b now).cache k).1 hsome
        exact (hwf1.2.2.mem_iff).1 hkeys
      refine ⟨hwf1.1, ?_, ?_⟩
      · unfold updateAccessOrder
        simp only [List.nodup_append, List.nodup_cons, List.nodup_nil]
        refine ⟨hwf1.2.1.erase k, ⟨by simp, trivial⟩, ?_⟩
        intro a ha hb
        simp only [List.mem_singleton] at hb
        subst hb
        exact (hwf1.2.1.not_mem_erase) ha
      · unfold updateAccessOrder
        exact (hwf1.2.2.trans (List.perm_cons_erase hmem)).trans
          (List.perm_append_singleton k _).symm
    · next hexp => exact delete_WF _ k hwf1
  · exact hwf1

theorem liveLookup_get (b : MemoryCacheBackend α) (now : Int) (k k' : String) (h : WF b) :
    liveLookup (get b now k).2 now k' = liveLookup b now k' := by
  unfold get
  have hwf1 := cleanup_WF b now h
  split
  · next e heq =>
    split
    · next hexp =>
      have hstep : liveLookup
          { cleanupExpired b now with
              accessOrder := updateAccessOrder k (cleanupExpired b now).accessOrder }
          now k' = liveLookup (cleanupExpired b now) now k' := rfl
      rw [hstep]
      exact liveLookup_cleanup b now k' h
    · next hexp =>
      exfalso
      rw [cleanup_lookup b now k h] at heq
      have := liveLookup_isExpired_false b now k e heq
      simp [this] at hexp
  · exact liveLookup_cleanup b now k' h

end MemoryCacheBackend

theorem setKey_append_of_none {β : Type _} (l : List (String × β)) (k : String) (v : β)
    (h : lookupKey l k = none) : setKey l k v = l ++ [(k, v)] := by
  induction l with
  | nil => simp [setKey]
  | cons p rest ih =>
    by_cases hp : p.1 = k
    · simp [lookupKey, hp] at h
    · simp only [lookupKey, if_neg hp] at h
      simp [setKey, hp, ih h]

namespace MemoryCacheBackend

variable {α : Type}

theorem enforce_spec (max : Nat) (cache : List (String × CacheEntry α)) (ord : List String)
    (hndc : (cache.map Prod.fst).Nodup) (hndo : ord.Nodup)
    (hperm : List.Perm (cache.map Prod.fst) ord) :
    ((enforceLoop max cache ord).1.map Prod.fst).Nodup ∧
      (enforceLoop max cache ord).2.Nodup ∧
      List.Perm ((enforceLoop max cache ord).1.map Prod.fst) ((enforceLoop max cache ord).2) ∧
      (enforceLoop max cache ord).1.length ≤ max := by
  induction cache, ord using enforceLoop.induct max with
  | case1 cache ord h =>
    have hstep : enforceLoop max cache ord = (cache, ord) := by
      rw [enforceLoop.eq_def, if_pos h]
    rw [hstep]
    exact ⟨hndc, hndo, hperm, h⟩
  | case2 cache h =>
    exfalso
    have hkeys : cache.map Prod.fst = [] := hperm.eq_nil
    have : cache.length = 0 := by
      have := congrArg List.length hkeys
      simpa using this
    exact h (this ▸ Nat.zero_le max)
  | case3 cache h o rest ho ih =>
    have hno : o ∉ rest := (List.nodup_cons.1 hndo).1
    have herest : rest.erase o = rest := List.erase_of_not_mem hno
    have hndc' : ((eraseKey cache o).map Prod.fst).Nodup := by
      rw [map_fst_eraseKey]
      exact hndc.erase o
    have hndo' : (rest.erase o).Nodup := by
      rw [herest]
      exact (List.nodup_cons.1 hndo).2
    have hperm' : List.Perm ((eraseKey cache o).map Prod.fst) (rest.erase o) := by
      rw [map_fst_eraseKey, herest]
      have := hperm.erase o
      simpa [List.erase_cons_head] using this
    have hstep : enforceLoop max cache (o :: rest) =
        enforceLoop max (eraseKey cache o) (rest.erase o) := by
      rw [enforceLoop.eq_def]
      simp only [if_neg h, if_pos ho]
    rw [hstep]
    exact ih hndc' hndo' hperm'
  | case4 cache h o rest ho ih =>
    exfalso
    have hmem : o ∈ cache.map Prod.fst := hperm.mem_iff.2 (List.mem_cons_self o rest)
    exact ho ((lookupKey_isSome_iff_mem_keys cache o).2 hmem)

theorem enforce_lookup_last (max : Nat) (hmax : 1 ≤ max) (ord' : List String) :
    ∀ (cache : List (String × CacheEntry α)) (k : String),
      (cache.map Prod.fst).Nodup → (ord' ++ [k]).Nodup →
      List.Perm (cache.map Prod.fst) (ord' ++ [k]) →
      lookupKey (enforceLoop max cache (ord' ++ [k])).1 k = lookupKey cache k := by
  induction ord' with
  | nil =>
    intro cache k hndc hndo hperm
    have hlen : cache.length = 1 := by
      have := hperm.length_eq
      simpa using this
    have hle : cache.length ≤ max := by omega
    rw [enforceLoop.eq_def, if_pos hle]
  | cons o rest ih =>
    intro cache k hndc hndo hperm
    by_cases hle : cache.length ≤ max
    · rw [enforceLoop.eq_def, if_pos hle]
    · have hcons : (o :: rest) ++ [k] = o :: (rest ++ [k]) := by simp
      have hndo' : (o :: (rest ++ [k])).Nodup := by rwa [hcons] at hndo
      have hno : o ∉ rest ++ [k] := (List.nodup_cons.1 hndo').1
      have hok : o ≠ k := by
        intro hc
        exact hno (hc ▸ List.mem_append_right rest (List.mem_singleton.2 rfl))
      have hmem : o ∈ cache.map Prod.fst := by
        rw [hcons] at hperm
        exact hperm.mem_iff.2 (List.mem_cons_self o _)
      have ho : (lookupKey cache o).isSome :=
        (lookupKey_isSome_iff_mem_keys cache o).2 hmem
      have herest : (rest ++ [k]).erase o = rest ++ [k] := List.erase_of_not_mem hno
      have hstep : enforceLoop max cache ((o :: rest) ++ [k]) =
          enforceLoop max (eraseKey cache o) (rest ++ [k]) := by
        rw [hcons, enforceLoop.eq_def]
        simp only [if_neg hle, if_pos ho, herest]
      rw [hstep]
      have hndc' : ((eraseKey cache o).map Prod.fst).Nodup := by
        rw [map_fst_eraseKey]
        exact hndc.erase o
      have hndo'' : (rest ++ [k]).Nodup := (List.nodup_cons.1 hndo').2
      have hperm' : List.Perm ((eraseKey cache o).map Prod.fst) (rest ++ [k]) := by
        rw [map_fst_eraseKey]
        rw [hcons] at hperm
        have := hperm.erase o
        simpa [List.erase_cons_head] using this
      rw [ih (eraseKey cache o) k hndc' hndo'' hperm']
      exact lookupKey_eraseKey_ne cache o k (fun hc => hok hc.symm)

theorem set_maxSize (b : MemoryCacheBackend α) (k : String) (e : CacheEntry α) :
    ((set b k e).2).maxSize = b.maxSize := rfl

theorem set_pre_nodup_cache (b : MemoryCacheBackend α) (k : String) (e : CacheEntry α)
    (h : WF b) : ((setKey b.cache k e).map Prod.fst).Nodup := by
  rw [map_fst_setKey]
  split
  · exact h.1
  · next hns =>
    have hnone : lookupKey b.cache k = none := by
      cases hl : lookupKey b.cache k with
      | none => rfl
      | some e' => rw [hl] at hns; simp at hns
    have hnm : k ∉ b.cache.map Prod.fst := by
      intro hm
      have hs := (lookupKey_isSome_iff_mem_keys b.cache k).2 hm
      rw [hnone] at hs
      simp at hs
    rw [List.nodup_append]
    refine ⟨h.1, by simp, ?_⟩
    intro a ha hb
    simp only [List.mem_singleton] at hb
    subst hb
    exact hnm ha

theorem set_pre_nodup_ord (b : MemoryCacheBackend α) (k : String) (h : WF b) :
    (updateAccessOrder k b.accessOrder).Nodup := by
  unfold updateAccessOrder
  simp only [List.nodup_append, List.nodup_cons, List.nodup_nil]
  refine ⟨h.2.1.erase k, ⟨by simp, trivial⟩, ?_⟩
  intro a ha hb
  simp only [List.mem_singleton] at hb
  subst hb
  exact h.2.1.not_mem_erase ha

theorem set_pre_perm (b : MemoryCacheBackend α) (k : String) (e : CacheEntry α)
    (h : WF b) :
    List.Perm ((setKey b.cache k e).map Prod.fst) (updateAccessOrder k b.accessOrder) := by
  unfold updateAccessOrder
  rw [map_fst_setKey]
  split
  · next hs =>
    have hmemk : k ∈ b.cache.map Prod.fst :=
      (lookupKey_isSome_iff_mem_keys b.cache k).1 hs
    have hmemo : k ∈ b.accessOrder := h.2.2.mem_iff.1 hmemk
    exact (h.2.2.trans (List.perm_cons_erase hmemo)).trans
      (List.perm_append_singleton k _).symm
  · next hns =>
    have hnm : k ∉ b.accessOrder := by
      intro hm
      exact hns ((lookupKey_isSome_iff_mem_keys b.cache k).2 (h.2.2.mem_iff.2 hm))
    rw [List.erase_of_not_mem hnm]
    exact h.2.2.append_right [k]

theorem set_WF (b : MemoryCacheBackend α) (k : String) (e : CacheEntry α) (h : WF b) :
    WF ((set b k e).2) := by
  unfold set WF
  have hs := enforce_spec b.maxSize (setKey b.cache k e) (updateAccessOrder k b.accessOrder)
    (set_pre_nodup_cache b k e h) (set_pre_nodup_ord b k h) (set_pre_perm b k e h)
  exact ⟨hs.1, hs.2.1, hs.2.2.1⟩

theorem set_length_le (b : MemoryCacheBackend α) (k : String) (e : CacheEntry α)
    (h : WF b) : ((set b k e).2).cache.length ≤ b.maxSize := by
  unfold set
  exact (enforce_spec b.maxSize (setKey b.cache k e) (updateAccessOrder k b.accessOrder)
    (set_pre_nodup_cache b k e h) (set_pre_nodup_ord b k h) (set_pre_perm b k e h)).2.2.2

theorem set_stores (b : MemoryCacheBackend α) (k : String) (e : CacheEntry α)
    (h : WF b) (hmax : 1 ≤ b.maxSize) :
    lookupKey ((set b k e).2).cache k = some e := by
  unfold set
  have hlast := enforce_lookup_last b.maxSize hmax (b.accessOrder.erase k)
    (setKey b.cache k e) k (set_pre_nodup_cache b k e h) (set_pre_nodup_ord b k h)
    (set_pre_perm b k e h)
  simpa [updateAccessOrder, lookupKey_setKey_self] using hlast

theorem liveLookup_set_self (b : MemoryCacheBackend α) (now : Int) (k : String)
    (e : CacheEntry α) (h : WF b) (hmax : 1 ≤ b.maxSize)
    (hlive : e.isExpired now = false) :
    liveLookup ((set b k e).2) now k = some e := by
  unfold liveLookup
  rw [set_stores b k e h hmax]
  simp [hlive]

/-- A `set` of a fresh key on a full backend evicts exactly the head of
the recency list (the least-recently-used key) and nothing else. -/
theorem set_evicts_lru (b : MemoryCacheBackend α) (k : String) (e : CacheEntry α)
    (h : WF b) (hmax : 1 ≤ b.maxSize) (hfull : b.cache.length = b.maxSize)
    (hfresh : lookupKey b.cache k = none) :
    ∃ o restOrd, b.accessOrder = o :: restOrd ∧
      lookupKey ((set b k e).2).cache k = some e ∧
      lookupKey ((set b k e).2).cache o = none ∧
      ∀ k', k' ≠ k → k' ≠ o → lookupKey ((set b k e).2).cache k' = lookupKey b.cache k' := by
  have hknm : k ∉ b.cache.map Prod.fst := by
    intro hm
    have hs := (lookupKey_isSome_iff_mem_keys b.cache k).2 hm
    rw [hfresh] at hs
    simp at hs
  have hkno : k ∉ b.accessOrder := fun hm => hknm (h.2.2.mem_iff.2 hm)
  have hordlen : b.accessOrder.length = b.maxSize := by
    have h1 := h.2.2.length_eq
    have h2 : (b.cache.map Prod.fst).length = b.cache.length := List.length_map _ _
    omega
  obtain ⟨o, restOrd, hord⟩ : ∃ o restOrd, b.accessOrder = o :: restOrd := by
    cases hc : b.accessOrder with
    | nil =>
      rw [hc] at hordlen
      simp at hordlen
      omega
    | cons o r => exact ⟨o, r, rfl⟩
  have homem : o ∈ b.accessOrder := by
    rw [hord]
    exact List.mem_cons_self o restOrd
  have hok : o ≠ k := fun hc => hkno (hc ▸ homem)
  have hcache1 : setKey b.cache k e = b.cache ++ [(k, e)] :=
    setKey_append_of_none _ _ _ hfresh
  have hord1 : updateAccessOrder k b.accessOrder = o :: (restOrd ++ [k]) := by
    unfold updateAccessOrder
    rw [List.erase_of_not_mem hkno, hord]
    simp
  have hlen1 : (setKey b.cache k e).length = b.maxSize + 1 := by
    rw [hcache1]
    simp [hfull]
  have hnle : ¬(setKey b.cache k e).length ≤ b.maxSize := by omega
  have hosome : (lookupKey (setKey b.cache k e) o).isSome := by
    rw [lookupKey_setKey_ne b.cache k o e hok]
    exact (lookupKey_isSome_iff_mem_keys b.cache o).2 (h.2.2.mem_iff.mpr homem)
  have honr : o ∉ restOrd := by
    have := h.2.1
    rw [hord] at this
    exact (List.nodup_cons.1 this).1
  have herase : (restOrd ++ [k]).erase o = restOrd ++ [k] := by
    apply List.erase_of_not_mem
    intro hm
    rcases List.mem_append.1 hm with hm1 | hm2
    · exact honr hm1
    · exact hok (List.mem_singleton.1 hm2)
  have hlen2 : (eraseKey (setKey b.cache k e) o).length ≤ b.maxSize := by
    rw [length_eraseKey, if_pos hosome]
    omega
  have hresult : ((set b k e).2).cache = eraseKey (setKey b.cache k e) o := by
    show (enforceLoop b.maxSize (setKey b.cache k e) (updateAccessOrder k b.accessOrder)).1 = _
    rw [hord1, enforceLoop.eq_def]
    simp only [if_neg hnle, if_pos hosome, herase]
    rw [enforceLoop.eq_def, if_pos hlen2]
  refine ⟨o, restOrd, hord, ?_, ?_, ?_⟩
  · rw [hresult, lookupKey_eraseKey_ne _ _ _ (fun hc => hok hc.symm), lookupKey_setKey_self]
  · rw [hresult]
    exact lookupKey_eraseKey_self _ o (set_pre_nodup_cache b k e h)
  · intro k' hk' hko
    rw [hresult, lookupKey_eraseKey_ne _ _ _ hko, lookupKey_setKey_ne _ _ _ _ hk']

end MemoryCacheBackend

theorem mem_setKey {β : Type _} (l : List (String × β)) (k : String) (v : β)
    (p : String × β) (h : p ∈ setKey l k v) : p = (k, v) ∨ p ∈ l := by
  induction l with
  | nil =>
    simp [setKey] at h
    exact Or.inl h
  | cons q rest ih =>
    by_cases hq : q.1 = k
    · simp only [setKey, if_pos hq] at h
      rcases List.mem_cons.1 h with h1 | h2
      · exact Or.inl h1
      · exact Or.inr (List.mem_cons_of_mem q h2)
    · simp only [setKey, if_neg hq] at h
      rcases List.mem_cons.1 h with h1 | h2
      · exact Or.inr (h1 ▸ List.mem_cons_self q rest)
      · rcases ih h2 with h3 | h4
        · exact Or.inl h3
        · exact Or.inr (List.mem_cons_of_mem q h4)

theorem lookupKey_setKey_cases {β : Type _} (l : List (String × β)) (k k' : String) (v : β) :
    lookupKey (setKey l k v) k' = if k' = k then some v else lookupKey l k' := by
  by_cases h : k' = k
  · subst h
    simp [lookupKey_setKey_self]
  · simp [lookupKey_setKey_ne l k k' v h, h]

namespace UnifiedCacheManager

variable {α : Type}

theorem updateBackend_lookup (m : UnifiedCacheManager α) (name name' : String)
    (b : MemoryCacheBackend α) :
    lookupKey (m.updateBackend name b).backends name' =
      if name' = name then some b else lookupKey m.backends name' := by
  unfold updateBackend
  exact lookupKey_setKey_cases m.backends name name' b

theorem updateBackend_primary (m : UnifiedCacheManager α) (name : String)
    (b : MemoryCacheBackend α) :
    (m.updateBackend name b).primaryBackend = m.primaryBackend := rfl

theorem updateBackend_WFB (m : UnifiedCacheManager α) (name : String)
    (b : MemoryCacheBackend α) (hwf : ∀ p ∈ m.backends, MemoryCacheBackend.WF p.2)
    (hb : MemoryCacheBackend.WF b) :
    ∀ p ∈ (m.updateBackend name b).backends, MemoryCacheBackend.WF p.2 := by
  intro p hp
  rcases mem_setKey m.backends name b p hp with h1 | h2
  · rw [h1]
    exact hb
  · exact hwf p h2

theorem WFB_lookup (m : UnifiedCacheManager α)
    (hwf : ∀ p ∈ m.backends, MemoryCacheBackend.WF p.2) (name : String)
    (b : MemoryCacheBackend α) (h : lookupKey m.backends name = some b) :
    MemoryCacheBackend.WF b :=
  hwf (name, b) (mem_of_lookupKey_eq_some m.backends name b h)

theorem setEntry_not_expired (now : Int) (ns k : String) (data : α) (dataType : String)
    (ttl : Int) (extras : List (String × String)) :
    (setEntry now ns k data dataType ttl extras).isExpired now = false := by
  unfold setEntry CacheEntry.isExpired
  split
  · rfl
  · next h =>
    simp only [decide_eq_false_iff_not, not_lt]
    have h1 : ¬ttl ≤ 0 := h
    show now ≤ now + ttl
    omega

theorem getFallback_cons_absent (m : UnifiedCacheManager α) (now : Int) (ns k : String)
    (extras : List (String × String)) (ck name : String) (rest : List String)
    (h : lookupKey m.backends name = none) :
    getFallback m now ns k extras ck (name :: rest) =
      getFallback m now ns k extras ck rest := by
  conv_lhs => unfold getFallback
  simp only [h]

theorem getFallback_cons_hit (m : UnifiedCacheManager α) (now : Int) (ns k : String)
    (extras : List (String × String)) (ck name : String) (rest : List String)
    (b b1 : MemoryCacheBackend α) (e : CacheEntry α)
    (hb : lookupKey m.backends name = some b)
    (hres : MemoryCacheBackend.get b now ck = (some e, b1)) :
    getFallback m now ns k extras ck (name :: rest) =
      (some e.data,
        (set (m.updateBackend name b1) now ns k e.data "default"
          (some e.ttlSeconds) extras).2) := by
  conv_lhs => unfold getFallback
  simp only [hb, hres]

theorem getFallback_cons_miss (m : UnifiedCacheManager α) (now : Int) (ns k : String)
    (extras : List (String × String)) (ck name : String) (rest : List String)
    (b b1 : MemoryCacheBackend α)
    (hb : lookupKey m.backends name = some b)
    (hres : MemoryCacheBackend.get b now ck = (none, b1)) :
    getFallback m now ns k extras ck (name :: rest) =
      getFallback (m.updateBackend name b1) now ns k extras ck rest := by
  conv_lhs => unfold getFallback
  simp only [hb, hres]

theorem fallbackLive_cons_absent (m : UnifiedCacheManager α) (now : Int) (ck name : String)
    (rest : List String) (h : lookupKey m.backends name = none) :
    fallbackLive m now ck (name :: rest) = fallbackLive m now ck rest := by
  conv_lhs => unfold fallbackLive
  simp only [h]

theorem fallbackLive_cons_hit (m : UnifiedCacheManager α) (now : Int) (ck name : String)
    (rest : List String) (b : MemoryCacheBackend α) (e : CacheEntry α)
    (hb : lookupKey m.backends name = some b)
    (hl : MemoryCacheBackend.liveLookup b now ck = some e) :
    fallbackLive m now ck (name :: rest) = some e := by
  conv_lhs => unfold fallbackLive
  simp only [hb, hl]

theorem fallbackLive_cons_miss (m : UnifiedCacheManager α) (now : Int) (ck name : String)
    (rest : List String) (b : MemoryCacheBackend α)
    (hb : lookupKey m.backends name = some b)
    (hl : MemoryCacheBackend.liveLookup b now ck = none) :
    fallbackLive m now ck (name :: rest) = fallbackLive m now ck rest := by
  conv_lhs => unfold fallbackLive
  simp only [hb, hl]

theorem set_state_of_primary (m : UnifiedCacheManager α) (now : Int) (ns k : String)
    (data : α) (dataType : String) (ttl? : Option Int) (extras : List (String × String))
    (bp : MemoryCacheBackend α) (hp : lookupKey m.backends m.primaryBackend = some bp) :
    (set m now ns k data dataType ttl? extras).2 =
      m.updateBackend m.primaryBackend
        (MemoryCacheBackend.set bp (getCacheKey ns k extras)
          (setEntry now ns k data dataType (ttl?.getD (m.getTTL dataType)) extras)).2 := by
  conv_lhs => unfold set
  simp only [hp]

/-- Specification of the fallback probe loop of `UnifiedCacheManager.get`:
its result is the payload of the first live fallback entry (read on the
reference state `m`), and on a fallback hit the promoted entry is live in
the primary backend of the resulting manager state. -/
theorem getFallback_spec (m : UnifiedCacheManager α) (now : Int) (ns k : String)
    (extras : List (String × String)) (fbs : List String) :
    ∀ m' : UnifiedCacheManager α,
      (∀ p ∈ m'.backends, MemoryCacheBackend.WF p.2) →
      m'.primaryBackend = m.primaryBackend →
      (∀ name, (lookupKey m.backends name).isSome ↔ (lookupKey m'.backends name).isSome) →
      (∀ name b b', lookupKey m.backends name = some b →
        lookupKey m'.backends name = some b' →
        MemoryCacheBackend.liveLookup b now (getCacheKey ns k extras) =
          MemoryCacheBackend.liveLookup b' now (getCacheKey ns k extras)) →
      (∀ bp', lookupKey m'.backends m'.primaryBackend = some bp' → 1 ≤ bp'.maxSize) →
      (lookupKey m'.backends m'.primaryBackend).isSome →
      (getFallback m' now ns k extras (getCacheKey ns k extras) fbs).1 =
          Option.map (fun e => e.data)
            (fallbackLive m now (getCacheKey ns k extras) fbs) ∧
        ∀ e, fallbackLive m now (getCacheKey ns k extras) fbs = some e →
          ∃ bp' e',
            lookupKey ((getFallback m' now ns k extras (getCacheKey ns k extras) fbs).2).backends
                m.primaryBackend = some bp' ∧
              MemoryCacheBackend.liveLookup bp' now (getCacheKey ns k extras) = some e' ∧
              e'.data = e.data := by
  induction fbs with
  | nil =>
    intro m' _ _ _ _ _ _
    refine ⟨rfl, ?_⟩
    intro e he
    unfold fallbackLive at he
    cases he
  | cons name rest ih =>
    intro m' hwf hprim hsome hlive hsz hpsome
    cases hb' : lookupKey m'.backends name with
    | none =>
      have hbm : lookupKey m.backends name = none := by
        cases hbm : lookupKey m.backends name with
        | none => rfl
        | some b =>
          have hx := (hsome name).1 (by simp [hbm])
          rw [hb'] at hx
          simp at hx
      rw [getFallback_cons_absent m' now ns k extras _ name rest hb',
        fallbackLive_cons_absent m now _ name rest hbm]
      exact ih m' hwf hprim hsome hlive hsz hpsome
    | some b' =>
      obtain ⟨b, hbm⟩ : ∃ b, lookupKey m.backends name = some b := by
        have hx := (hsome name).2 (by simp [hb'])
        cases hbm : lookupKey m.backends name with
        | none =>
          rw [hbm] at hx
          simp at hx
        | some b => exact ⟨b, rfl⟩
      have hwfb' : MemoryCacheBackend.WF b' := WFB_lookup m' hwf name b' hb'
      have hagree := hlive name b b' hbm hb'
      rcases hres : MemoryCacheBackend.get b' now (getCacheKey ns k extras) with ⟨e?, b''⟩
      have hfst : e? = MemoryCacheBackend.liveLookup b' now (getCacheKey ns k extras) := by
        have hx := MemoryCacheBackend.get_fst b' now (getCacheKey ns k extras) hwfb'
        rw [hres] at hx
        exact hx
      have hwfb'' : MemoryCacheBackend.WF b'' := by
        have hx := MemoryCacheBackend.get_WF b' now (getCacheKey ns k extras) hwfb'
        rw [hres] at hx
        exact hx
      have hms'' : b''.maxSize = b'.maxSize := by
        have hx := MemoryCacheBackend.get_maxSize b' now (getCacheKey ns k extras)
        rw [hres] at hx
        exact hx
      have hlive'' : ∀ k', MemoryCacheBackend.liveLookup b'' now k' =
          MemoryCacheBackend.liveLookup b' now k' := by
        intro k'
        have hx := MemoryCacheBackend.liveLookup_get b' now (getCacheKey ns k extras) k' hwfb'
        rw [hres] at hx
        exact hx
      cases e? with
      | some e =>
        have hlb : MemoryCacheBackend.liveLookup b now (getCacheKey ns k extras) = some e := by
          rw [hagree, ← hfst]
        rw [getFallback_cons_hit m' now ns k extras _ name rest b' b'' e hb' hres,
          fallbackLive_cons_hit m now _ name rest b e hbm hlb]
        obtain ⟨bp1, hbp1⟩ : ∃ bp1,
            lookupKey (m'.updateBackend name b'').backends
              (m'.updateBackend name b'').primaryBackend = some bp1 := by
          rw [updateBackend_primary, updateBackend_lookup]
          split
          · exact ⟨b'', rfl⟩
          · next hne =>
            cases hx : lookupKey m'.backends m'.primaryBackend with
            | none =>
              rw [hx] at hpsome
              simp at hpsome
            | some bp0 => exact ⟨bp0, rfl⟩
        have hwfbp1 : MemoryCacheBackend.WF bp1 := by
          apply WFB_lookup (m'.updateBackend name b'') _
            (m'.updateBackend name b'').primaryBackend bp1 hbp1
          exact updateBackend_WFB m' name b'' hwf hwfb''
        have hszbp1 : 1 ≤ bp1.maxSize := by
          rw [updateBackend_primary, updateBackend_lookup] at hbp1
          by_cases hne : m'.primaryBackend = name
          · rw [if_pos hne] at hbp1
            cases hbp1
            rw [hms'']
            apply hsz b'
            rw [hne]
            exact hb'
          · rw [if_neg hne] at hbp1
            exact hsz bp1 hbp1
        constructor
        · rfl
        · intro e0 he0
          cases he0
          have hstate : (some e.data,
              (set (m'.updateBackend name b'') now ns k e.data "default"
                (some e.ttlSeconds) extras).2).2 =
              (m'.updateBackend name b'').updateBackend
                (m'.updateBackend name b'').primaryBackend
                (MemoryCacheBackend.set bp1 (getCacheKey ns k extras)
                  (setEntry now ns k e.data "default"
                    ((some e.ttlSeconds).getD
                      ((m'.updateBackend name b'').getTTL "default")) extras)).2 := by
            rw [set_state_of_primary _ now ns k e.data "default" (some e.ttlSeconds)
              extras bp1 hbp1]
          rw [hstate]
          have hpeq : m.primaryBackend = (m'.updateBackend name b'').primaryBackend := by
            rw [updateBackend_primary, hprim]
          refine ⟨(MemoryCacheBackend.set bp1 (getCacheKey ns k extras)
              (setEntry now ns k e.data "default"
                ((some e.ttlSeconds).getD ((m'.updateBackend name b'').getTTL "default"))
                extras)).2,
            setEntry now ns k e.data "default"
              ((some e.ttlSeconds).getD ((m'.updateBackend name b'').getTTL "default")) extras,
            ?_, ?_, rfl⟩
          · rw [updateBackend_lookup, if_pos hpeq]
          · exact MemoryCacheBackend.liveLookup_set_self bp1 now (getCacheKey ns k extras)
              _ hwfbp1 hszbp1
              (setEntry_not_expired now ns k e.data "default" _ extras)
      | none =>
        have hlb : MemoryCacheBackend.liveLookup b now (getCacheKey ns k extras) = none := by
          rw [hagree, ← hfst]
        rw [getFallback_cons_miss m' now ns k extras _ name rest b' b'' hb' hres,
          fallbackLive_cons_miss m now _ name rest b hbm hlb]
        apply ih (m'.updateBackend name b'')
        · exact updateBackend_WFB m' name b'' hwf hwfb''
        · rw [updateBackend_primary]
          exact hprim
        · intro name0
          rw [updateBackend_lookup]
          by_cases hn0 : name0 = name
          · subst hn0
            rw [if_pos rfl]
            simp [hbm]
          · rw [if_neg hn0]
            exact hsome name0
        · intro name0 b0 b0'
          rw [updateBackend_lookup]
          by_cases hn0 : name0 = name
          · subst hn0
            rw [if_pos rfl]
            intro hb0 hb0'
            cases hb0'
            rw [hbm] at hb0
            cases hb0
            rw [hlive'']
            exact hagree
          · rw [if_neg hn0]
            exact hlive name0 b0 b0'
        · intro bp0
          rw [updateBackend_primary, updateBackend_lookup]
          by_cases hne : m'.primaryBackend = name
          · rw [if_pos hne]
            intro hb0
            cases hb0
            rw [hms'']
            apply hsz b'
            rw [hne]
            exact hb'
          · rw [if_neg hne]
            exact hsz bp0
        · rw [updateBackend_primary, updateBackend_lookup]
          by_cases hne : m'.primaryBackend = name
          · rw [if_pos hne]
            rfl
          · rw [if_neg hne]
            exact hpsome

end UnifiedCacheManager

theorem lookupKey_map_value {β γ : Type _} (l : List (String × β)) (f : β → γ)
    (name : String) :
    lookupKey (l.map (fun p => (p.1, f p.2))) name = (lookupKey l name).map f := by
  induction l with
  | nil => simp [lookupKey]
  | cons p rest ih =>
    by_cases hp : p.1 = name
    · simp [lookupKey, hp]
    · simp [lookupKey, hp, ih]

namespace UnifiedCacheManager

variable {α : Type}

theorem get_primary_hit (m : UnifiedCacheManager α) (now : Int) (ns k : String)
    (extras : List (String × String)) (bp b1 : MemoryCacheBackend α) (e : CacheEntry α)
    (hp : lookupKey m.backends m.primaryBackend = some bp)
    (hres : MemoryCacheBackend.get bp now (getCacheKey ns k extras) = (some e, b1)) :
    m.get now ns k extras = (some e.data, m.updateBackend m.primaryBackend b1) := by
  conv_lhs => unfold get
  simp only [hp, hres]

theorem get_primary_miss (m : UnifiedCacheManager α) (now : Int) (ns k : String)
    (extras : List (String × String)) (bp b1 : MemoryCacheBackend α)
    (hp : lookupKey m.backends m.primaryBackend = some bp)
    (hres : MemoryCacheBackend.get bp now (getCacheKey ns k extras) = (none, b1)) :
    m.get now ns k extras =
      getFallback (m.updateBackend m.primaryBackend b1) now ns k extras
        (getCacheKey ns k extras) m.fallbackBackends := by
  conv_lhs => unfold get
  simp only [hp, hres]

theorem delete_backends (m : UnifiedCacheManager α) (ns k : String)
    (extras : List (String × String)) :
    ((m.delete ns k extras).2).backends =
      m.backends.map (fun p =>
        (p.1, (MemoryCacheBackend.delete p.2 (getCacheKey ns k extras)).2)) := rfl

theorem delete_backends_lookup (m : UnifiedCacheManager α) (ns k : String)
    (extras : List (String × String)) (name : String) :
    lookupKey ((m.delete ns k extras).2).backends name =
      (lookupKey m.backends name).map
        (fun b => (MemoryCacheBackend.delete b (getCacheKey ns k extras)).2) := by
  rw [delete_backends]
  exact lookupKey_map_value m.backends
    (fun b => (MemoryCacheBackend.delete b (getCacheKey ns k extras)).2) name

/-- C1. Cache backend orchestration of `UnifiedCacheManager`:
`get` probes the primary backend first and returns a live primary entry
directly; on a primary miss it probes the fallback backends in configured
order, returns the first live fallback payload and promotes it into the
primary backend, which therefore contains the key immediately after the
call; `set` writes only to the primary backend; `delete` removes the key
from every configured backend. -/
theorem cache_backend_orchestration_c1 (m : UnifiedCacheManager α) (now : Int)
    (ns k : String) (extras : List (String × String))
    (hwf : ∀ p ∈ m.backends, MemoryCacheBackend.WF p.2)
    (bp : MemoryCacheBackend α)
    (hp : lookupKey m.backends m.primaryBackend = some bp)
    (hsz : 1 ≤ bp.maxSize) :
    (∀ e, MemoryCacheBackend.liveLookup bp now (getCacheKey ns k extras) = some e →
      (m.get now ns k extras).1 = some e.data) ∧
    (MemoryCacheBackend.liveLookup bp now (getCacheKey ns k extras) = none →
      (m.get now ns k extras).1 =
        Option.map (fun e => e.data)
          (fallbackLive m now (getCacheKey ns k extras) m.fallbackBackends) ∧
      ∀ e, fallbackLive m now (getCacheKey ns k extras) m.fallbackBackends = some e →
        ∃ bp' e',
          lookupKey ((m.get now ns k extras).2).backends m.primaryBackend = some bp' ∧
          MemoryCacheBackend.liveLookup bp' now (getCacheKey ns k extras) = some e' ∧
          e'.data = e.data) ∧
    (∀ (data : α) dataType ttl? name, name ≠ m.primaryBackend →
      lookupKey ((m.set now ns k data dataType ttl? extras).2).backends name =
        lookupKey m.backends name) ∧
    (∀ name b', lookupKey ((m.delete ns k extras).2).backends name = some b' →
      lookupKey b'.cache (getCacheKey ns k extras) = none) := by
  have hwfbp : MemoryCacheBackend.WF bp := WFB_lookup m hwf m.primaryBackend bp hp
  rcases hres : MemoryCacheBackend.get bp now (getCacheKey ns k extras) with ⟨e?, b1⟩
  have hfst : e? = MemoryCacheBackend.liveLookup bp now (getCacheKey ns k extras) := by
    have hx := MemoryCacheBackend.get_fst bp now (getCacheKey ns k extras) hwfbp
    rw [hres] at hx
    exact hx
  have hwfb1 : MemoryCacheBackend.WF b1 := by
    have hx := MemoryCacheBackend.get_WF bp now (getCacheKey ns k extras) hwfbp
    rw [hres] at hx
    exact hx
  have hms1 : b1.maxSize = bp.maxSize := by
    have hx := MemoryCacheBackend.get_maxSize bp now (getCacheKey ns k extras)
    rw [hres] at hx
    exact hx
  have hlive1 : ∀ k', MemoryCacheBackend.liveLookup b1 now k' =
      MemoryCacheBackend.liveLookup bp now k' := by
    intro k'
    have hx := MemoryCacheBackend.liveLookup_get bp now (getCacheKey ns k extras) k' hwfbp
    rw [hres] at hx
    exact hx
  refine ⟨?_, ?_, ?_, ?_⟩
  · intro e he
    rw [he] at hfst
    subst hfst
    rw [get_primary_hit m now ns k extras bp b1 e hp hres]
  · intro hnone
    rw [hnone] at hfst
    subst hfst
    rw [get_primary_miss m now ns k extras bp b1 hp hres]
    apply getFallback_spec m now ns k extras m.fallbackBackends
      (m.updateBackend m.primaryBackend b1)
    · exact updateBackend_WFB m m.primaryBackend b1 hwf hwfb1
    · exact updateBackend_primary m m.primaryBackend b1
    · intro name
      rw [updateBackend_lookup]
      by_cases hn : name = m.primaryBackend
      · subst hn
        simp [hp]
      · rw [if_neg hn]
    · intro name b0 b0'
      rw [updateBackend_lookup]
      by_cases hn : name = m.primaryBackend
      · subst hn
        rw [if_pos rfl]
        intro hb0 hb0'
        cases hb0'
        rw [hp] at hb0
        cases hb0
        rw [hlive1]
      · rw [if_neg hn]
        intro hb0 hb0'
        rw [hb0] at hb0'
        cases hb0'
        rfl
    · intro bp'
      rw [updateBackend_primary, updateBackend_lookup, if_pos rfl]
      intro hb0
      cases hb0
      rw [hms1]
      exact hsz
    · rw [updateBackend_primary, updateBackend_lookup, if_pos rfl]
      rfl
  · intro data dataType ttl? name hne
    rw [set_state_of_primary m now ns k data dataType ttl? extras bp hp,
      updateBackend_lookup, if_neg hne]
  · intro name b' hb'
    rw [delete_backends_lookup] at hb'
    cases hb0 : lookupKey m.backends name with
    | none =>
      rw [hb0] at hb'
      cases hb'
    | some b0 =>
      rw [hb0] at hb'
      cases hb'
      have hwfb0 : MemoryCacheBackend.WF b0 := WFB_lookup m hwf name b0 hb0
      rw [MemoryCacheBackend.lookup_delete b0 (getCacheKey ns k extras)
        (getCacheKey ns k extras) hwfb0.1]
      simp

end UnifiedCacheManager

/-- C3. LRU bound of the memory cache backend: starting from a
well-formed state, `get`, `set` and `delete` keep the backend well-formed
and within `max_size` entries (`get`/`delete` never grow the store, and
`set` enforces the bound unconditionally); a `set` of a fresh key at full
capacity evicts exactly the least-recently-used key (the head of the
recency list) and no other; and the E5 scenario
`set(ns,"a",1); set(ns,"b",2); get(ns,"a"); set(ns,"c",3)` on a
`max_size = 2` memory primary leaves `get(ns,"b")` a miss while
`get(ns,"a")` returns 1 and `get(ns,"c")` returns 3. -/
theorem memory_lru_bound_c3 {α : Type} (b : MemoryCacheBackend α) (now : Int)
    (k : String) (e : CacheEntry α) (h : MemoryCacheBackend.WF b) :
    (b.cache.length ≤ b.maxSize →
      ((MemoryCacheBackend.get b now k).2).cache.length ≤ b.maxSize ∧
      ((MemoryCacheBackend.delete b k).2).cache.length ≤ b.maxSize) ∧
    ((MemoryCacheBackend.set b k e).2).cache.length ≤ b.maxSize ∧
    MemoryCacheBackend.WF (MemoryCacheBackend.get b now k).2 ∧
    MemoryCacheBackend.WF (MemoryCacheBackend.set b k e).2 ∧
    MemoryCacheBackend.WF (MemoryCacheBackend.delete b k).2 ∧
    (1 ≤ b.maxSize → b.cache.length = b.maxSize → lookupKey b.cache k = none →
      ∃ o restOrd, b.accessOrder = o :: restOrd ∧
        lookupKey ((MemoryCacheBackend.set b k e).2).cache k = some e ∧
        lookupKey ((MemoryCacheBackend.set b k e).2).cache o = none ∧
        ∀ k', k' ≠ k → k' ≠ o →
          lookupKey ((MemoryCacheBackend.set b k e).2).cache k' =
            lookupKey b.cache k') ∧
    ((e5Final.get 0 "ns" "b" []).1 = none ∧
      (e5Final.get 0 "ns" "a" []).1 = some 1 ∧
      (e5Final.get 0 "ns" "c" []).1 = some 3) := by
  refine ⟨?_, ?_, ?_, ?_, ?_, ?_, ?_, ?_, ?_⟩
  · intro hsize
    exact ⟨le_trans (MemoryCacheBackend.get_length_le b now k) hsize,
      le_trans (MemoryCacheBackend.delete_length_le b k) hsize⟩
  · exact MemoryCacheBackend.set_length_le b k e h
  · exact MemoryCacheBackend.get_WF b now k h
  · exact MemoryCacheBackend.set_WF b k e h
  · exact MemoryCacheBackend.delete_WF b k h
  · intro hmax hfull hfresh
    exact MemoryCacheBackend.set_evicts_lru b k e h hmax hfull hfresh
  all_goals
    simp [e5Final, e5Manager, UnifiedCacheManager.set, UnifiedCacheManager.get,
      UnifiedCacheManager.getTTL, UnifiedCacheManager.defaultTTLConfig,
      UnifiedCacheManager.setEntry, UnifiedCacheManager.updateBackend,
      UnifiedCacheManager.getFallback,
      MemoryCacheBackend.set, MemoryCacheBackend.get, MemoryCacheBackend.cleanupExpired,
      MemoryCacheBackend.delete, MemoryCacheBackend.updateAccessOrder,
      MemoryCacheBackend.enforceLoop.eq_def, CacheEntry.isExpired,
      lookupKey, setKey, eraseKey, getCacheKey]

/-- C4 counterexample: the default TTLs computed by
`UnifiedCacheManager._get_ttl` are not the ones the claim states.
`stock_data` maps to 3600 s (claimed 1800 s), `news_data` to 1800 s
(claimed 900 s), `concept_data` to the 3600 s fallback (claimed 1800 s)
and `capital_flow` to the 3600 s fallback (claimed 300–600 s). -/
theorem default_ttl_c4_counterexample :
    defaultConfigManager.getTTL "stock_data" = 3600 ∧ (3600 : Int) ≠ 1800 ∧
    defaultConfigManager.getTTL "news_data" = 1800 ∧ (1800 : Int) ≠ 900 ∧
    defaultConfigManager.getTTL "concept_data" = 3600 ∧
    defaultConfigManager.getTTL "capital_flow" = 3600 ∧
    ¬(300 ≤ (3600 : Int) ∧ (3600 : Int) ≤ 600) ∧
    (UnifiedCacheManager.setEntry 0 "ns" "k" (5 : Nat) "stock_data"
      (defaultConfigManager.getTTL "stock_data") []).ttlSeconds = 3600 := by
  decide

/-- C4 (amended). When `set` is called without an explicit `ttl_seconds`,
the TTL stored with the entry comes from the config's `default_ttl` dict:
`market_data` 300 s, `stock_data` 3600 s, `news_data` 1800 s,
`fundamentals` 86400 s, and every other data type (including
`capital_flow`, `concept_data` and `dividend_data`) falls back to
3600 s.  An entry stored with `ttl_seconds = 0` never expires: `get`
returns it at every instant until an explicit `delete`. -/
theorem default_ttl_c4_amended {α : Type} (m : UnifiedCacheManager α)
    (httl : m.defaultTTL = UnifiedCacheManager.defaultTTLConfig) :
    m.getTTL "market_data" = 300 ∧ m.getTTL "stock_data" = 3600 ∧
    m.getTTL "news_data" = 1800 ∧ m.getTTL "fundamentals" = 86400 ∧
    (∀ dt, lookupKey UnifiedCacheManager.defaultTTLConfig dt = none →
      m.getTTL dt = 3600) ∧
    (∀ e : CacheEntry α, e.ttlSeconds = 0 → ∀ now, e.isExpired now = false) ∧
    (∀ (b : MemoryCacheBackend α) (now : Int) (k : String) (e : CacheEntry α),
      MemoryCacheBackend.WF b → lookupKey b.cache k = some e → e.ttlSeconds = 0 →
      (MemoryCacheBackend.get b now k).1 = some e ∧
      lookupKey ((MemoryCacheBackend.delete b k).2).cache k = none) := by
  refine ⟨?_, ?_, ?_, ?_, ?_, ?_, ?_⟩
  · simp [UnifiedCacheManager.getTTL, httl, UnifiedCacheManager.defaultTTLConfig, lookupKey]
  · simp [UnifiedCacheManager.getTTL, httl, UnifiedCacheManager.defaultTTLConfig, lookupKey]
  · simp [UnifiedCacheManager.getTTL, httl, UnifiedCacheManager.defaultTTLConfig, lookupKey]
  · simp [UnifiedCacheManager.getTTL, httl, UnifiedCacheManager.defaultTTLConfig, lookupKey]
  · intro dt hdt
    simp [UnifiedCacheManager.getTTL, httl, hdt]
  · intro e he now
    unfold CacheEntry.isExpired
    rw [if_pos (by omega)]
  · intro b now k e hwf hlk hzero
    have hexp : e.isExpired now = false := by
      unfold CacheEntry.isExpired
      rw [if_pos (by omega)]
    have hlive : MemoryCacheBackend.liveLookup b now k = some e := by
      unfold MemoryCacheBackend.liveLookup
      rw [hlk]
      simp [hexp]
    refine ⟨?_, ?_⟩
    · rw [MemoryCacheBackend.get_fst b now k hwf, hlive]
    · rw [MemoryCacheBackend.lookup_delete b k k hwf.1]
      simp

/-!
## Circuit breaker and retry (`tradingagents/utils/enhanced_error_handling.py`)
-/

namespace CircuitBreaker

variable {α : Type}

/-- A run of failing calls from a Closed breaker: counts accumulate and
the breaker opens exactly on the call where both `failure_count` reaches
`failure_threshold` and `request_count` reaches `min_requests`. -/
theorem failCalls_run (cfg : CircuitBreakerConfig) (ts : List Int) :
    ∀ (j : Nat) (lft : Option Int),
      ¬(cfg.failureThreshold ≤ j ∧ cfg.minRequests ≤ j) →
      j + ts.length ≤ max cfg.failureThreshold cfg.minRequests →
      failCalls cfg ts ⟨CircuitBreakerState.closed, j, 0, j, lft⟩ =
        ⟨if cfg.failureThreshold ≤ j + ts.length ∧ cfg.minRequests ≤ j + ts.length
            then CircuitBreakerState.opened else CircuitBreakerState.closed,
          j + ts.length, 0, j + ts.length, lastTime ts lft⟩ := by
  induction ts with
  | nil =>
    intro j lft hstart hlen
    unfold failCalls lastTime
    simp only [List.foldl_nil, List.length_nil, Nat.add_zero]
    rw [if_neg hstart]
  | cons t rest ih =>
    intro j lft hstart hlen
    have hstep : failCalls cfg (t :: rest) ⟨CircuitBreakerState.closed, j, 0, j, lft⟩ =
        failCalls cfg rest
          ((call cfg ⟨CircuitBreakerState.closed, j, 0, j, lft⟩ t false).2) := rfl
    have hcall : (call cfg ⟨CircuitBreakerState.closed, j, 0, j, lft⟩ t false).2 =
        onFailure cfg ⟨CircuitBreakerState.closed, j, 0, j + 1, lft⟩ t := by
      unfold call
      rw [if_neg (by simp)]
      simp
    by_cases htrip : cfg.failureThreshold ≤ j + 1 ∧ cfg.minRequests ≤ j + 1
    · have hrest : rest = [] := by
        have h1 : max cfg.failureThreshold cfg.minRequests ≤ j + 1 :=
          max_le htrip.1 htrip.2
        have h2 : j + 1 + rest.length ≤ max cfg.failureThreshold cfg.minRequests := by
          simpa [Nat.add_comm, Nat.add_assoc, Nat.add_left_comm] using hlen
        have : rest.length = 0 := by omega
        exact List.length_eq_zero.1 this
      subst hrest
      have hopen : onFailure cfg ⟨CircuitBreakerState.closed, j, 0, j + 1, lft⟩ t =
          ⟨CircuitBreakerState.opened, j + 1, 0, j + 1, some t⟩ := by
        unfold onFailure
        rw [if_pos (by simpa using htrip.2)]
        rw [if_neg (by simp)]
        rw [if_pos (by simpa using htrip.1)]
      rw [hstep, hcall, hopen]
      unfold failCalls lastTime
      simp only [List.foldl_cons, List.foldl_nil, List.length_cons, List.length_nil]
      rw [if_pos (by constructor <;> omega)]
    · have hclosed : onFailure cfg ⟨CircuitBreakerState.closed, j, 0, j + 1, lft⟩ t =
          ⟨CircuitBreakerState.closed, j + 1, 0, j + 1, some t⟩ := by
        unfold onFailure
        by_cases hmr : cfg.minRequests ≤ j + 1
        · rw [if_pos (by simpa using hmr)]
          rw [if_neg (by simp)]
          rw [if_neg]
          simp only [not_and]
          intro _
          intro hft
          exact htrip ⟨by simpa using hft, hmr⟩
        · rw [if_neg (by simpa using hmr)]
      have hlen' : (j + 1) + rest.length ≤ max cfg.failureThreshold cfg.minRequests := by
        have := hlen
        simp only [List.length_cons] at this
        omega
      rw [hstep, hcall, hclosed]
      have := ih (j + 1) (some t) htrip hlen'
      rw [this]
      have harith : j + 1 + rest.length = j + (rest.length + 1) := by omega
      rw [harith]
      rfl

end CircuitBreaker

/-- C2 counterexample: with `failure_threshold = 5`, `min_requests = 10`,
`recovery_timeout = 60`, after ten consecutive failures (opening the
breaker) and one admitted successful call in HalfOpen, the state is
Closed and `failure_count` is 0, but `request_count` and `success_count`
are not reset — refuting the claim that "the counters are reset". -/
theorem circuit_breaker_c2_counterexample :
    (CircuitBreaker.call ⟨5, 60, 10⟩
        (CircuitBreaker.failCalls ⟨5, 60, 10⟩ [0, 1, 2, 3, 4, 5, 6, 7, 8, 9]
          CircuitBreaker.initial) 100 true).2.state = CircuitBreakerState.closed ∧
    (CircuitBreaker.call ⟨5, 60, 10⟩
        (CircuitBreaker.failCalls ⟨5, 60, 10⟩ [0, 1, 2, 3, 4, 5, 6, 7, 8, 9]
          CircuitBreaker.initial) 100 true).2.failureCount = 0 ∧
    (CircuitBreaker.call ⟨5, 60, 10⟩
        (CircuitBreaker.failCalls ⟨5, 60, 10⟩ [0, 1, 2, 3, 4, 5, 6, 7, 8, 9]
          CircuitBreaker.initial) 100 true).2.requestCount = 11 ∧
    (CircuitBreaker.call ⟨5, 60, 10⟩
        (CircuitBreaker.failCalls ⟨5, 60, 10⟩ [0, 1, 2, 3, 4, 5, 6, 7, 8, 9]
          CircuitBreaker.initial) 100 true).2.successCount = 1 ∧
    (11 : Nat) ≠ 0 ∧ (1 : Nat) ≠ 0 := by
  decide

/-- C2 (amended). Circuit breaker state machine: driven by a function
that fails on every invocation, after the call on which the failure count
has reached `failure_threshold` and the request count has reached
`min_requests` the breaker is Open; while less than `recovery_timeout`
seconds have passed since the last failure every call is rejected without
invoking the function and leaves the state unchanged; once at least
`recovery_timeout` seconds have elapsed the next call is admitted
(HalfOpen); if that admitted call succeeds the state becomes Closed and
the failure counter is reset to zero (the request and success counters
are not reset), and if it fails the state becomes Open again with the
recovery timer restarted to the time of that failure. -/
theorem circuit_breaker_c2_amended (cfg : CircuitBreakerConfig)
    (hf : 1 ≤ cfg.failureThreshold) (_hm : 1 ≤ cfg.minRequests)
    (ts : List Int) (hlen : ts.length = max cfg.failureThreshold cfg.minRequests)
    (lf : Int) (hlast : CircuitBreaker.lastTime ts none = some lf)
    (tnext tadmit : Int) :
    (CircuitBreaker.failCalls cfg ts CircuitBreaker.initial).state =
        CircuitBreakerState.opened ∧
    (CircuitBreaker.failCalls cfg ts CircuitBreaker.initial).failureCount = ts.length ∧
    (CircuitBreaker.failCalls cfg ts CircuitBreaker.initial).requestCount = ts.length ∧
    (CircuitBreaker.failCalls cfg ts CircuitBreaker.initial).lastFailureTime = some lf ∧
    (tnext - lf < cfg.recoveryTimeout → ∀ s,
      CircuitBreaker.call cfg (CircuitBreaker.failCalls cfg ts CircuitBreaker.initial)
        tnext s =
      (CircuitBreaker.CallOutcome.rejected,
        CircuitBreaker.failCalls cfg ts CircuitBreaker.initial)) ∧
    (cfg.recoveryTimeout ≤ tadmit - lf →
      ((CircuitBreaker.call cfg (CircuitBreaker.failCalls cfg ts CircuitBreaker.initial)
          tadmit true).1 = CircuitBreaker.CallOutcome.succeeded ∧
        (CircuitBreaker.call cfg (CircuitBreaker.failCalls cfg ts CircuitBreaker.initial)
          tadmit true).2.state = CircuitBreakerState.closed ∧
        (CircuitBreaker.call cfg (CircuitBreaker.failCalls cfg ts CircuitBreaker.initial)
          tadmit true).2.failureCount = 0 ∧
        (CircuitBreaker.call cfg (CircuitBreaker.failCalls cfg ts CircuitBreaker.initial)
          tadmit true).2.requestCount = ts.length + 1) ∧
      ((CircuitBreaker.call cfg (CircuitBreaker.failCalls cfg ts CircuitBreaker.initial)
          tadmit false).1 = CircuitBreaker.CallOutcome.failed ∧
        (CircuitBreaker.call cfg (CircuitBreaker.failCalls cfg ts CircuitBreaker.initial)
          tadmit false).2.state = CircuitBreakerState.opened ∧
        (CircuitBreaker.call cfg (CircuitBreaker.failCalls cfg ts CircuitBreaker.initial)
          tadmit false).2.lastFailureTime = some tadmit)) := by
  have hN : cfg.failureThreshold ≤ ts.length ∧ cfg.minRequests ≤ ts.length := by
    rw [hlen]
    exact ⟨le_max_left _ _, le_max_right _ _⟩
  have hrun : CircuitBreaker.failCalls cfg ts CircuitBreaker.initial =
      ⟨CircuitBreakerState.opened, ts.length, 0, ts.length,
        CircuitBreaker.lastTime ts none⟩ := by
    have h0 : ¬(cfg.failureThreshold ≤ 0 ∧ cfg.minRequests ≤ 0) := by omega
    have hx := CircuitBreaker.failCalls_run cfg ts 0 none h0 (by omega)
    unfold CircuitBreaker.initial
    rw [hx]
    simp only [Nat.zero_add]
    rw [if_pos hN]
  rw [hrun, hlast]
  refine ⟨rfl, rfl, rfl, rfl, ?_, ?_⟩
  · intro hcold s
    have hnr : CircuitBreaker.shouldAttemptReset cfg
        ⟨CircuitBreakerState.opened, ts.length, 0, ts.length, some lf⟩ tnext = false := by
      unfold CircuitBreaker.shouldAttemptReset
      simp only [decide_eq_false_iff_not, not_le]
      omega
    unfold CircuitBreaker.call
    rw [if_pos ⟨rfl, by simp [hnr]⟩]
  · intro hwarm
    have hreset : CircuitBreaker.shouldAttemptReset cfg
        ⟨CircuitBreakerState.opened, ts.length, 0, ts.length, some lf⟩ tadmit = true := by
      unfold CircuitBreaker.shouldAttemptReset
      simp only [decide_eq_true_eq]
      omega
    have hmr : cfg.minRequests ≤ ts.length + 1 := by omega
    constructor
    · refine ⟨?_, ?_, ?_, ?_⟩ <;>
        simp [CircuitBreaker.call, CircuitBreaker.onSuccess, hreset]
    · refine ⟨?_, ?_, ?_⟩ <;>
        simp [CircuitBreaker.call, CircuitBreaker.onFailure, hreset, hmr]

theorem fibLoop_invariant (fuel : Nat) :
    ∀ m : Nat, 2 ≤ m →
      fibLoop fuel ((List.range m).map fibSpec) = (List.range (m + fuel)).map fibSpec := by
  induction fuel with
  | zero =>
    intro m _
    rfl
  | succ f ih =>
    intro m hm
    unfold fibLoop
    have hlen : ((List.range m).map fibSpec).length = m := by simp
    have hget1 : ((List.range m).map fibSpec).getD (m - 1) 0 = fibSpec (m - 1) := by
      rw [List.getD_eq_getElem?_getD, List.getElem?_map, List.getElem?_range (by omega)]
      rfl
    have hget2 : ((List.range m).map fibSpec).getD (m - 2) 0 = fibSpec (m - 2) := by
      rw [List.getD_eq_getElem?_getD, List.getElem?_map, List.getElem?_range (by omega)]
      rfl
    have hsum : fibSpec (m - 1) + fibSpec (m - 2) = fibSpec m := by
      obtain ⟨k, hk⟩ : ∃ k, m = k + 2 := ⟨m - 2, by omega⟩
      subst hk
      show fibSpec (k + 1) + fibSpec k = fibSpec (k + 2)
      rfl
    rw [hlen, hget1, hget2, hsum]
    have happ : (List.range m).map fibSpec ++ [fibSpec m] = (List.range (m + 1)).map fibSpec := by
      rw [List.range_succ, List.map_append]
      rfl
    rw [happ, ih (m + 1) (by omega)]
    have harith : m + 1 + f = m + (f + 1) := by omega
    rw [harith]

theorem fibonacciSequence_eq_map (n : Nat) (hn : 1 ≤ n) :
    fibonacciSequence n = (List.range n).map fibSpec := by
  unfold fibonacciSequence
  by_cases h1 : n = 1
  · subst h1
    decide
  by_cases h2 : n = 2
  · subst h2
    decide
  rw [if_neg (by omega), if_neg h1, if_neg h2]
  have h12 : ([1, 1] : List Nat) = (List.range 2).map fibSpec := by decide
  rw [h12, fibLoop_invariant (n - 2) 2 (le_refl 2)]
  have harith : 2 + (n - 2) = n := by omega
  rw [harith]

theorem fibonacciSequence_getD (n : Nat) (hn : 1 ≤ n) :
    (fibonacciSequence (n + 1)).getD n 0 = fibSpec n := by
  rw [fibonacciSequence_eq_map (n + 1) (by omega),
    List.getD_eq_getElem?_getD, List.getElem?_map, List.getElem?_range (by omega)]
  rfl

/-- C5. Retry delay computation: for every retry policy (with nonnegative
base delay, multiplier and cap) and every attempt `n ≥ 1`, the computed
delay equals the strategy's formula — Fixed `base`, Linear `base × n`,
Exponential `base × multiplier^(n-1)`, Fibonacci `base × fib-value` with
fib(1) = fib(2) = 1 (so the factors are 1, 2, 3, 5, …) — clamped to
`max_delay` and, when jitter is enabled, multiplied by the uniform factor
`0.5 + r/2 ∈ [0.5, 1)`; consequently the delay lies between
`min(formula, max_delay) × (0.5 if jitter else 1)` and `max_delay`. -/
theorem retry_delay_c5 (cfg : RetryConfig) (n : Nat) (r : ℚ)
    (hn : 1 ≤ n) (hb : 0 ≤ cfg.baseDelay) (hmult : 0 ≤ cfg.backoffMultiplier)
    (hmax : 0 ≤ cfg.maxDelay) (hr0 : 0 ≤ r) (hr1 : r < 1) :
    calculateDelay cfg n r =
      min (specDelayFormula cfg n) cfg.maxDelay *
        (if cfg.jitter then 1 / 2 + r * (1 / 2) else 1) ∧
    fibSpec 1 = 1 ∧ fibSpec 2 = 2 ∧ fibSpec 3 = 3 ∧ fibSpec 4 = 5 ∧
    min (specDelayFormula cfg n) cfg.maxDelay *
      (if cfg.jitter then (1 / 2 : ℚ) else 1) ≤ calculateDelay cfg n r ∧
    calculateDelay cfg n r ≤ cfg.maxDelay := by
  have hfib : (fibonacciSequence (n + 1))[n]?.getD 0 = fibSpec n := by
    rw [← List.getD_eq_getElem?_getD]
    exact fibonacciSequence_getD n hn
  have hformula : calculateDelay cfg n r =
      min (specDelayFormula cfg n) cfg.maxDelay *
        (if cfg.jitter then 1 / 2 + r * (1 / 2) else 1) := by
    unfold calculateDelay specDelayFormula
    cases hs : cfg.strategy <;>
      cases hj : cfg.jitter <;>
      simp [hfib]
  have hspec_nonneg : 0 ≤ specDelayFormula cfg n := by
    unfold specDelayFormula
    cases cfg.strategy
    · exact hb
    · exact mul_nonneg hb (pow_nonneg hmult _)
    · exact mul_nonneg hb (by positivity)
    · exact mul_nonneg hb (by positivity)
  have hclamp_nonneg : 0 ≤ min (specDelayFormula cfg n) cfg.maxDelay :=
    le_min hspec_nonneg hmax
  have hclamp_le : min (specDelayFormula cfg n) cfg.maxDelay ≤ cfg.maxDelay :=
    min_le_right _ _
  have hfg : (if cfg.jitter then (1 / 2 : ℚ) else 1) ≤
      (if cfg.jitter then 1 / 2 + r * (1 / 2) else 1) := by
    by_cases hj : cfg.jitter
    · simp only [hj, if_true]
      linarith
    · simp [hj]
  have hg1 : (if cfg.jitter then (1 / 2 : ℚ) + r * (1 / 2) else 1) ≤ 1 := by
    by_cases hj : cfg.jitter
    · simp only [hj, if_true]
      linarith
    · simp [hj]
  refine ⟨hformula, rfl, rfl, rfl, rfl, ?_, ?_⟩
  · rw [hformula]
    exact mul_le_mul_of_nonneg_left hfg hclamp_nonneg
  · rw [hformula]
    calc min (specDelayFormula cfg n) cfg.maxDelay *
          (if cfg.jitter then 1 / 2 + r * (1 / 2) else 1)
        ≤ min (specDelayFormula cfg n) cfg.maxDelay * 1 :=
          mul_le_mul_of_nonneg_left hg1 hclamp_nonneg
      _ = min (specDelayFormula cfg n) cfg.maxDelay := mul_one _
      _ ≤ cfg.maxDelay := hclamp_le


/-!
## Parallel analyst merge (`tradingagents/graph/parallel_analysts.py`)
-/

theorem setSlot_eq (s : String → Option String) (k v k' : String) :
    setSlot s k v k' = if k' = k then some v else s k' := rfl

theorem reportFold_lookup (fields : List (String × String)) (key : String) :
    ∀ s : String → Option String, (fields.map Prod.fst).Nodup →
      (fields.foldl (fun acc kv =>
        if strEndsWith kv.1 "_report" ∧ kv.2 ≠ "" then setSlot acc kv.1 kv.2 else acc) s) key =
      (match lookupKey fields key with
       | some v => if strEndsWith key "_report" ∧ v ≠ "" then some v else s key
       | none => s key) := by
  induction fields with
  | nil =>
    intro s _
    simp [lookupKey]
  | cons kv rest ih =>
    intro s hnd
    simp only [List.map_cons, List.nodup_cons] at hnd
    rw [List.foldl_cons, ih _ hnd.2]
    by_cases hk : kv.1 = key
    · have hknr : key ∉ rest.map Prod.fst := hk ▸ hnd.1
      rw [lookupKey_eq_none_of_not_mem rest key hknr]
      simp only [lookupKey, if_pos hk]
      by_cases hcond : strEndsWith kv.1 "_report" ∧ kv.2 ≠ ""
      · rw [if_pos hcond, setSlot_eq, if_pos hk.symm, if_pos (hk ▸ hcond)]
      · rw [if_neg hcond, if_neg (hk ▸ hcond)]
    · simp only [lookupKey, if_neg hk]
      by_cases hcond : strEndsWith kv.1 "_report" ∧ kv.2 ≠ ""
      · rw [if_pos hcond]
        have hss : setSlot s kv.1 kv.2 key = s key := by
          rw [setSlot_eq, if_neg (fun hc => hk hc.symm)]
        cases hlk : lookupKey rest key with
        | none => simp [hss]
        | some v => simp [hss]
      · rw [if_neg hcond]

theorem specialFold_lookup (fields : List (String × String)) (keys : List String)
    (key : String) :
    ∀ s : String → Option String,
      (keys.foldl (fun acc k0 =>
        match lookupKey fields k0 with
        | some v => setSlot acc k0 v
        | none => acc) s) key =
      (if key ∈ keys ∧ (lookupKey fields key).isSome
       then lookupKey fields key else s key) := by
  induction keys with
  | nil =>
    intro s
    simp
  | cons k0 rest ih =>
    intro s
    rw [List.foldl_cons, ih]
    by_cases hmem : key ∈ rest
    · by_cases hsome : (lookupKey fields key).isSome
      · rw [if_pos ⟨hmem, hsome⟩, if_pos ⟨List.mem_cons_of_mem k0 hmem, hsome⟩]
      · rw [if_neg (fun hc => hsome hc.2), if_neg (fun hc => hsome hc.2)]
        cases hlk : lookupKey fields k0 with
        | none => rfl
        | some v =>
          show setSlot s k0 v key = s key
          have hk0 : ¬k0 = key := by
            intro hc
            subst hc
            rw [hlk] at hsome
            simp at hsome
          rw [setSlot_eq, if_neg (fun hc => hk0 hc.symm)]
    · by_cases hk0 : k0 = key
      · subst hk0
        cases hlk : lookupKey fields k0 with
        | none =>
          rw [if_neg (fun hc => hmem hc.1), if_neg (fun hc => by simpa using hc.2)]
        | some v =>
          rw [if_neg (fun hc => hmem hc.1)]
          show setSlot s k0 v k0 = if k0 ∈ k0 :: rest ∧ (Option.some v).isSome
            then some v else s k0
          rw [setSlot_eq, if_pos rfl,
            if_pos ⟨List.mem_cons_self k0 rest, by simp⟩]
      · rw [if_neg (fun hc => hmem hc.1), if_neg]
        · cases hlk : lookupKey fields k0 with
          | none => rfl
          | some v =>
            show setSlot s k0 v key = s key
            rw [setSlot_eq, if_neg (fun hc => hk0 hc.symm)]
        · intro hc
          rcases List.mem_cons.1 hc.1 with h1 | h2
          · exact hk0 h1.symm
          · exact hmem h2

theorem mergeFields_lookup_report {μ : Type} (r : AnalystResult μ) (key : String)
    (hnd : (r.fields.map Prod.fst).Nodup) (hkey : strEndsWith key "_report" = true)
    (s : String → Option String) :
    mergeFields s r key =
      (match lookupKey r.fields key with
       | some v => if v ≠ "" then some v else s key
       | none => s key) := by
  have hns : key ∉ specialKeys := by
    intro hm
    simp only [specialKeys, List.mem_cons, List.mem_singleton] at hm
    rcases hm with h1 | h1 | h1 | h1
    · subst h1
      exact absurd hkey (by decide)
    · subst h1
      exact absurd hkey (by decide)
    · subst h1
      exact absurd hkey (by decide)
    · simp at h1
  unfold mergeFields
  rw [specialFold_lookup, if_neg (fun hc => hns hc.1),
    reportFold_lookup r.fields key s hnd]
  cases hlk : lookupKey r.fields key with
  | none => rfl
  | some v =>
    show (if strEndsWith key "_report" ∧ v ≠ "" then some v else s key) =
      if v ≠ "" then some v else s key
    simp [hkey]

theorem mergeFields_lookup_special {μ : Type} (r : AnalystResult μ) (key : String)
    (hnd : (r.fields.map Prod.fst).Nodup) (hkey : key ∈ specialKeys)
    (_hkey2 : strEndsWith key "_report" = false) (s : String → Option String) :
    mergeFields s r key =
      (match lookupKey r.fields key with
       | some v => some v
       | none => s key) := by
  unfold mergeFields
  rw [specialFold_lookup, reportFold_lookup r.fields key s hnd]
  cases hlk : lookupKey r.fields key with
  | none =>
    rw [if_neg (fun hc => by simpa using hc.2)]
  | some v =>
    rw [if_pos ⟨hkey, rfl⟩]

theorem slotsFold_report {μ : Type} (key : String) (hkey : strEndsWith key "_report" = true)
    (results : List (String × Option (AnalystResult μ))) :
    ∀ (s : String → Option String) (acc base : Option String),
      (∀ rr ∈ results, ∀ r, rr.2 = some r → (r.fields.map Prod.fst).Nodup) →
      s key = Option.or acc base →
      (results.foldl (fun acc rr =>
        match rr.2 with
        | none => acc
        | some r => mergeFields acc r) s) key =
      Option.or (results.foldl (fun a rr =>
        match rr.2 with
        | none => a
        | some r =>
          match lookupKey r.fields key with
          | some v => if v ≠ "" then some v else a
          | none => a) acc) base := by
  induction results with
  | nil =>
    intro s acc base _ hinv
    exact hinv
  | cons rr rest ih =>
    intro s acc base hnd hinv
    rw [List.foldl_cons, List.foldl_cons]
    cases hrr : rr.2 with
    | none =>
      exact ih s acc base (fun rr' hm r hr => hnd rr' (List.mem_cons_of_mem rr hm) r hr) hinv
    | some r =>
      have hndr : (r.fields.map Prod.fst).Nodup := hnd rr (List.mem_cons_self rr rest) r hrr
      have hinv' : mergeFields s r key =
          Option.or (match lookupKey r.fields key with
            | some v => if v ≠ "" then some v else acc
            | none => acc) base := by
        rw [mergeFields_lookup_report r key hndr hkey s]
        cases hlk : lookupKey r.fields key with
        | none => exact hinv
        | some v =>
          show (if v ≠ "" then some v else s key) =
            Option.or (if v ≠ "" then some v else acc) base
          by_cases hv : v ≠ ""
          · rw [if_pos hv, if_pos hv]
            rfl
          · rw [if_neg hv, if_neg hv]
            exact hinv
      exact ih _ _ base (fun rr' hm r' hr => hnd rr' (List.mem_cons_of_mem rr hm) r' hr) hinv'

theorem slotsFold_special {μ : Type} (key : String) (hkey : key ∈ specialKeys)
    (hkey2 : strEndsWith key "_report" = false)
    (results : List (String × Option (AnalystResult μ))) :
    ∀ (s : String → Option String) (acc base : Option String),
      (∀ rr ∈ results, ∀ r, rr.2 = some r → (r.fields.map Prod.fst).Nodup) →
      s key = Option.or acc base →
      (results.foldl (fun acc rr =>
        match rr.2 with
        | none => acc
        | some r => mergeFields acc r) s) key =
      Option.or (results.foldl (fun a rr =>
        match rr.2 with
        | none => a
        | some r =>
          match lookupKey r.fields key with
          | some v => some v
          | none => a) acc) base := by
  induction results with
  | nil =>
    intro s acc base _ hinv
    exact hinv
  | cons rr rest ih =>
    intro s acc base hnd hinv
    rw [List.foldl_cons, List.foldl_cons]
    cases hrr : rr.2 with
    | none =>
      exact ih s acc base (fun rr' hm r hr => hnd rr' (List.mem_cons_of_mem rr hm) r hr) hinv
    | some r =>
      have hndr : (r.fields.map Prod.fst).Nodup := hnd rr (List.mem_cons_self rr rest) r hrr
      have hinv' : mergeFields s r key =
          Option.or (match lookupKey r.fields key with
            | some v => some v
            | none => acc) base := by
        rw [mergeFields_lookup_special r key hndr hkey hkey2 s]
        cases hlk : lookupKey r.fields key with
        | none => exact hinv
        | some v => rfl
      exact ih _ _ base (fun rr' hm r' hr => hnd rr' (List.mem_cons_of_mem rr hm) r' hr) hinv'

theorem mergeMessages_eq {μ : Type} (results : List (String × Option (AnalystResult μ))) :
    ∀ init : List μ,
      (results.foldl (fun acc rr =>
        match rr.2 with
        | none => acc
        | some r =>
          match r.messages with
          | some ms => acc ++ ms
          | none => acc) init) =
      init ++ (results.map resultMessages).flatten := by
  induction results with
  | nil =>
    intro init
    simp
  | cons rr rest ih =>
    intro init
    rw [List.foldl_cons]
    cases hrr : rr.2 with
    | none =>
      rw [ih]
      simp [resultMessages, hrr]
    | some r =>
      cases hms : r.messages with
      | none =>
        rw [ih]
        simp [resultMessages, hrr, hms]
      | some ms =>
        rw [ih]
        simp [resultMessages, hrr, hms]

/-- C6. Parallel-executor merge: the merged state's `messages` list is
the original messages followed by the messages of each non-`None` result
in role-completion order (so its length is the input length plus the sum
of the result message counts); for every `*_report` key, the merged slot
holds the value of the latest-completing non-`None` result with a
non-empty value for it (falling back to the original slot); and the
merged `sender` is the one of the latest-completing result that provides
it. -/
theorem parallel_merge_c6 {μ : Type} (orig : MergeState μ)
    (results : List (String × Option (AnalystResult μ)))
    (hnd : ∀ rr ∈ results, ∀ r, rr.2 = some r → (r.fields.map Prod.fst).Nodup) :
    (mergeAnalystResults orig results).messages =
      orig.messages ++ (results.map resultMessages).flatten ∧
    (mergeAnalystResults orig results).messages.length =
      orig.messages.length + (results.map (fun rr => (resultMessages rr).length)).sum ∧
    (∀ key, strEndsWith key "_report" = true →
      (mergeAnalystResults orig results).slots key =
        Option.or (lastReportWrite results key) (orig.slots key)) ∧
    (mergeAnalystResults orig results).slots "sender" =
      Option.or (lastFieldWrite results "sender") (orig.slots "sender") := by
  have hmsg : (mergeAnalystResults orig results).messages =
      orig.messages ++ (results.map resultMessages).flatten :=
    mergeMessages_eq results orig.messages
  refine ⟨hmsg, ?_, ?_, ?_⟩
  · rw [hmsg]
    simp only [List.length_append, List.length_flatten, List.map_map]
    rfl
  · intro key hkey
    exact slotsFold_report key hkey results orig.slots none (orig.slots key) hnd rfl
  · exact slotsFold_special "sender" (by decide) (by decide) results orig.slots none
      (orig.slots "sender") hnd rfl

/-!
## Message log updates (`agents/utils/agent_utils.py`, `graph/setup.py`)
-/

/-- C7 counterexample: the message-cleaning node emitted by
`create_msg_delete` removes messages written by other nodes — applying
its update to a log holding another node's message yields only the
placeholder, so the log is not append-only. -/
theorem append_only_messages_c7_counterexample :
    (⟨1, "market analysis"⟩ : StoredMessage) ∈
      [(⟨1, "market analysis"⟩ : StoredMessage)] ∧
    applyMessageOps [⟨1, "market analysis"⟩]
      (deleteMessagesUpdate [⟨1, "market analysis"⟩] 2) = [⟨2, "Continue"⟩] ∧
    (⟨1, "market analysis"⟩ : StoredMessage) ∉
      applyMessageOps [⟨1, "market analysis"⟩]
        (deleteMessagesUpdate [⟨1, "market analysis"⟩] 2) := by
  decide

theorem applyRemoves_eq_filter (ids : List Nat) :
    ∀ l : List StoredMessage,
      ids.foldl (fun l i => l.filter (fun m => m.id ≠ i)) l =
        l.filter (fun m => decide (m.id ∉ ids)) := by
  induction ids with
  | nil =>
    intro l
    simp
  | cons i rest ih =>
    intro l
    rw [List.foldl_cons, ih, List.filter_filter]
    apply List.filter_congr
    intro m _
    by_cases h1 : m.id = i
    · simp [h1]
    · by_cases h2 : m.id ∈ rest <;> simp [h1, h2]

theorem applyMessageOps_adds (adds : List (Nat × String)) :
    ∀ log : List StoredMessage,
      (∀ p ∈ adds, ∀ m ∈ log, m.id ≠ p.1) →
      (adds.map Prod.fst).Nodup →
      applyMessageOps log (adds.map (fun p => MessageOp.addMsg p.1 p.2)) =
        log ++ adds.map (fun p => ⟨p.1, p.2⟩) := by
  induction adds with
  | nil =>
    intro log _ _
    simp [applyMessageOps]
  | cons p rest ih =>
    intro log hfresh hnd
    simp only [List.map_cons, List.nodup_cons] at hnd
    unfold applyMessageOps
    rw [List.map_cons, List.foldl_cons]
    have hany : log.any (fun m => m.id = p.1) = false := by
      rw [List.any_eq_false]
      intro m hm
      simp only [decide_eq_true_eq]
      exact hfresh p (List.mem_cons_self p rest) m hm
    simp only [hany]
    have hstep := ih (log ++ [⟨p.1, p.2⟩]) ?_ hnd.2
    · unfold applyMessageOps at hstep
      rw [if_neg (by simp [hany])]
      rw [hstep]
      simp
    · intro q hq m hm
      rcases List.mem_append.1 hm with h1 | h2
      · exact hfresh q (List.mem_cons_of_mem p hq) m h1
      · have : m = ⟨p.1, p.2⟩ := List.mem_singleton.1 h2
        subst this
        intro hc
        apply hnd.1
        rw [show p.1 = q.1 from hc]
        exact List.mem_map.2 ⟨q, hq, rfl⟩

/-- C7 (amended). Within a run, every node update consisting only of
added messages with fresh distinct ids appends to the log without
touching existing entries; the exception is the message-cleaning node
`create_msg_delete` introduced after each analyst, whose update removes
every existing message (including those written by other nodes) and
appends a single placeholder `HumanMessage("Continue")`. -/
theorem append_only_messages_c7_amended (log : List StoredMessage)
    (adds : List (Nat × String)) (pid : Nat)
    (hfresh : ∀ p ∈ adds, ∀ m ∈ log, m.id ≠ p.1)
    (hnd : (adds.map Prod.fst).Nodup) :
    applyMessageOps log (adds.map (fun p => MessageOp.addMsg p.1 p.2)) =
      log ++ adds.map (fun p => ⟨p.1, p.2⟩) ∧
    applyMessageOps log (deleteMessagesUpdate log pid) =
      [⟨pid, "Continue"⟩] := by
  constructor
  · exact applyMessageOps_adds adds log hfresh hnd
  · unfold deleteMessagesUpdate applyMessageOps
    rw [List.foldl_append, List.foldl_map]
    have hrem : log.foldl (fun l m0 => l.filter (fun m => m.id ≠ m0.id)) log = [] := by
      have h1 : log.foldl (fun l m0 => l.filter (fun m => m.id ≠ m0.id)) log =
          (log.map (fun m => m.id)).foldl (fun l i => l.filter (fun m => m.id ≠ i)) log := by
        rw [List.foldl_map]
      rw [h1, applyRemoves_eq_filter]
      rw [List.filter_eq_nil_iff]
      intro m hm
      simp only [decide_eq_true_eq, Decidable.not_not]
      exact List.mem_map.2 ⟨m, hm, rfl⟩
    rw [hrem]
    rfl

/-!
## Smart TTL policy (`utils/enhanced_cache_policies.py`)
-/

/-- C8 counterexample: with no recorded accesses the code skips the
frequency multiplier and clamps the plain `base_ttl`, while the claimed
formula (applied "including the case of zero recorded accesses")
multiplies by `min(0 × factor / 10, 3) = 0` and clamps to `min_ttl`:
for `market_data:000001` the code assigns 300 s, the formula 60 s. -/
theorem smart_ttl_c8_counterexample :
    defaultTTLRules.find?
        (fun r => fnmatchB ("market_data" ++ ":" ++ "000001") r.pattern) =
      some ⟨"market_data:*", 300, 3/2, 9/10, 86400, 60⟩ ∧
    calculateSmartTTL defaultTTLRules [] 10000 "market_data" "000001" none = 300 ∧
    specSmartTTLFormula ⟨"market_data:*", 300, 3/2, 9/10, 86400, 60⟩ 0 = 60 ∧
    (300 : Int) ≠ 60 := by
  refine ⟨rfl, rfl, ?_, by decide⟩
  simp only [specSmartTTLFormula, pyTrunc]
  norm_num
  rw [show Rat.floor 0 = 0 from rfl]
  decide

/-- C8 (amended): when the composite key's first matching rule is
`rule`, the smart TTL is
`clamp(int(base_ttl × min(recent × access_factor / 10, 3.0)), min_ttl,
max_ttl)` whenever the number `recent` of accesses recorded in the last
30 minutes is positive, and `clamp(base_ttl, min_ttl, max_ttl)` (the
multiplier being skipped) when it is zero. -/
theorem smart_ttl_c8_amended (rules : List SmartTTLRule)
    (accessPatterns : List (String × List Int)) (now : Int) (ns k : String)
    (rule : SmartTTLRule)
    (hfind : rules.find? (fun r => fnmatchB (ns ++ ":" ++ k) r.pattern) =
      some rule)
    (times : List Int)
    (htimes : (lookupKey accessPatterns (ns ++ ":" ++ k)).getD [] = times) :
    (0 < (times.filter (fun t => now - 1800 < t)).length →
      calculateSmartTTL rules accessPatterns now ns k none =
        max rule.minTtl (min
          (pyTrunc ((rule.baseTtl : ℚ) *
            min (((times.filter (fun t => now - 1800 < t)).length : ℚ) *
              rule.accessFactor / 10) 3))
          rule.maxTtl)) ∧
    ((times.filter (fun t => now - 1800 < t)).length = 0 →
      calculateSmartTTL rules accessPatterns now ns k none =
        max rule.minTtl (min rule.baseTtl rule.maxTtl)) := by
  constructor
  · intro hrec
    have hne : times ≠ [] := by
      intro hc
      rw [hc] at hrec
      simp at hrec
    unfold calculateSmartTTL
    rw [hfind]
    simp only [htimes]
    rw [if_pos ⟨hne, hrec⟩]
  · intro hrec
    unfold calculateSmartTTL
    rw [hfind]
    simp only [htimes]
    rw [if_neg]
    intro hc
    rw [hrec] at hc
    exact absurd hc.2 (by simp)

theorem smart_ttl_c8_amended_witness :
    calculateSmartTTL defaultTTLRules
        [("news_data:AAPL", [9000, 9500, 5000])] 10000 "news_data" "AAPL" none =
      max (60 : Int) (min
        (pyTrunc ((900 : ℚ) *
          min ((([(9000 : Int), 9500, 5000].filter
              (fun t => (10000 : Int) - 1800 < t)).length : ℚ) * 2 / 10) 3))
        86400) ∧
    calculateSmartTTL defaultTTLRules [] 10000 "news_data" "AAPL" none =
      max (60 : Int) (min 900 86400) := by
  constructor
  · exact (smart_ttl_c8_amended defaultTTLRules
      [("news_data:AAPL", [9000, 9500, 5000])] 10000 "news_data" "AAPL"
      ⟨"news_data:*", 900, 2, 9/10, 86400, 60⟩ rfl [9000, 9500, 5000] rfl).1
      (by decide)
  · exact (smart_ttl_c8_amended defaultTTLRules [] 10000 "news_data" "AAPL"
      ⟨"news_data:*", 900, 2, 9/10, 86400, 60⟩ rfl [] rfl).2 rfl

/-!
## Analysis-parameter validation (`web/utils/analysis_runner.py`)
-/

/-- C9: the duplicated `elif market_type == "A股":` guard on the US
branch of `validate_analysis_params` makes the US format check
unreachable, so for the US market (`"美股"`) no ticker-format check runs
at all: the ticker `"123"`, which fails the claimed US pattern
`^[A-Za-z]{1,5}$`, is nonetheless accepted with an empty error list,
while A-share and HK validation behave as claimed. -/
theorem ticker_validation_c9_code_bug :
    validateAnalysisParams "123" true ["market"] 3 "美股" = (true, []) ∧
    usTickerFormat ((pyStrip ("123" : String).data).map Char.toUpper) = false ∧
    validateAnalysisParams "123" true ["market"] 3 "A股" =
      (false, ["A股代码格式错误，应为6位数字（如：002115）"]) ∧
    validateAnalysisParams "000001" true ["market"] 3 "A股" = (true, []) := by
  decide

/-!
## Toolkit class-level configuration (`agents/utils/agent_utils.py`)
-/

theorem dictUpdate_lookup {α : Type} (c : List (String × α)) :
    ∀ d : List (String × α), (c.map Prod.fst).Nodup →
      ∀ k, lookupKey (dictUpdate d c) k =
        Option.or (lookupKey c k) (lookupKey d k) := by
  induction c with
  | nil =>
    intro d _ k
    simp [dictUpdate, lookupKey]
  | cons p rest ih =>
    intro d hnd k
    simp only [List.map_cons, List.nodup_cons] at hnd
    have hstep : dictUpdate d (p :: rest) = dictUpdate (setKey d p.1 p.2) rest := by
      simp [dictUpdate]
    rw [hstep, ih (setKey d p.1 p.2) hnd.2 k]
    by_cases hk : k = p.1
    · have hrest : lookupKey rest k = none := by
        apply lookupKey_eq_none_of_not_mem
        rw [hk]
        exact hnd.1
      rw [hrest, hk, lookupKey_setKey_self]
      simp [lookupKey, Option.or]
    · have hne : ¬(p.1 = k) := fun hc => hk hc.symm
      rw [lookupKey_setKey_ne d p.1 k p.2 hk]
      have hcons : lookupKey (p :: rest) k = lookupKey rest k := by
        simp [lookupKey, hne]
      rw [hcons]

/-- C10: `Toolkit` keeps its configuration in the single class-level
dictionary: calling the classmethod `update_config` — or merely
constructing an instance with a non-empty config argument — replaces
the class dict with its `dict.update`, so the `config` property of
every existing and future instance observes the updated bindings
(new keys appended, existing keys overwritten, untouched keys kept),
while constructing with `config=None` changes nothing. -/
theorem toolkit_shared_config_c10 {α : Type} (w : ToolkitWorld α)
    (c : List (String × α)) (hc : c ≠ []) (hnd : (c.map Prod.fst).Nodup) :
    toolkitConfig (toolkitUpdateConfig w c) = dictUpdate w.classConfig c ∧
    toolkitInit w (some c) =
      { classConfig := dictUpdate w.classConfig c,
        instances := w.instances + 1 } ∧
    toolkitConfig (toolkitInit w (some c)) =
      toolkitConfig (toolkitUpdateConfig w c) ∧
    (∀ k, lookupKey (toolkitConfig (toolkitUpdateConfig w c)) k =
      Option.or (lookupKey c k) (lookupKey w.classConfig k)) ∧
    toolkitInit w none = { w with instances := w.instances + 1 } := by
  refine ⟨rfl, ?_, ?_, ?_, rfl⟩
  · cases c with
    | nil => exact absurd rfl hc
    | cons p rest => rfl
  · cases c with
    | nil => exact absurd rfl hc
    | cons p rest => rfl
  · intro k
    exact dictUpdate_lookup c w.classConfig hnd k

theorem toolkit_shared_config_c10_witness :
    ([("llm_provider", 5), ("research_depth", 3)] : List (String × Nat)) ≠ [] ∧
    toolkitConfig (toolkitUpdateConfig (⟨[("llm_provider", 1)], 2⟩ : ToolkitWorld Nat)
        [("llm_provider", 5), ("research_depth", 3)]) =
      dictUpdate [("llm_provider", 1)] [("llm_provider", 5), ("research_depth", 3)] := by
  refine ⟨by decide, ?_⟩
  exact (toolkit_shared_config_c10 (⟨[("llm_provider", 1)], 2⟩ : ToolkitWorld Nat)
    [("llm_provider", 5), ("research_depth", 3)] (by decide) (by decide)).1

/-!
## Witnesses
-/

theorem cache_backend_orchestration_c1_witness :
    MemoryCacheBackend.liveLookup
        (⟨[("ns:k", ⟨"ns:k", 42, 0, 0, []⟩)], 10, ["ns:k"]⟩ : MemoryCacheBackend Nat)
        0 (getCacheKey "ns" "k" []) = some ⟨"ns:k", 42, 0, 0, []⟩ ∧
    ((⟨[("file", ⟨[("ns:k", ⟨"ns:k", 42, 0, 0, []⟩)], 10, ["ns:k"]⟩),
        ("memory", ⟨[], 10, []⟩)], "file", ["memory"],
        UnifiedCacheManager.defaultTTLConfig⟩ :
      UnifiedCacheManager Nat).get 0 "ns" "k" []).1 = some 42 := by
  refine ⟨by decide, ?_⟩
  exact (UnifiedCacheManager.cache_backend_orchestration_c1
    (⟨[("file", ⟨[("ns:k", ⟨"ns:k", 42, 0, 0, []⟩)], 10, ["ns:k"]⟩),
        ("memory", ⟨[], 10, []⟩)], "file", ["memory"],
        UnifiedCacheManager.defaultTTLConfig⟩ : UnifiedCacheManager Nat)
    0 "ns" "k" [] (by decide)
    (⟨[("ns:k", ⟨"ns:k", 42, 0, 0, []⟩)], 10, ["ns:k"]⟩ : MemoryCacheBackend Nat)
    rfl (by decide)).1 ⟨"ns:k", 42, 0, 0, []⟩ (by decide)

theorem circuit_breaker_c2_amended_witness :
    ((⟨5, 60, 10⟩ : CircuitBreakerConfig).recoveryTimeout ≤ 100 - 9) ∧
    (CircuitBreaker.call ⟨5, 60, 10⟩
        (CircuitBreaker.failCalls ⟨5, 60, 10⟩ [0, 1, 2, 3, 4, 5, 6, 7, 8, 9]
          CircuitBreaker.initial) 100 true).1 =
      CircuitBreaker.CallOutcome.succeeded ∧
    (CircuitBreaker.call ⟨5, 60, 10⟩
        (CircuitBreaker.failCalls ⟨5, 60, 10⟩ [0, 1, 2, 3, 4, 5, 6, 7, 8, 9]
          CircuitBreaker.initial) 100 true).2.state =
      CircuitBreakerState.closed := by
  have h := (circuit_breaker_c2_amended ⟨5, 60, 10⟩ (by decide) (by decide)
    [0, 1, 2, 3, 4, 5, 6, 7, 8, 9] (by decide) 9 (by decide) 30
    100).2.2.2.2.2 (by decide)
  exact ⟨by decide, h.1.1, h.1.2.1⟩

theorem memory_lru_bound_c3_witness :
    ((MemoryCacheBackend.set
        (⟨[("x", ⟨"x", 7, 0, 0, []⟩)], 2, ["x"]⟩ : MemoryCacheBackend Nat)
        "x" ⟨"x", 8, 0, 0, []⟩).2).cache.length ≤ 2 := by
  exact (memory_lru_bound_c3
    (⟨[("x", ⟨"x", 7, 0, 0, []⟩)], 2, ["x"]⟩ : MemoryCacheBackend Nat)
    0 "x" ⟨"x", 8, 0, 0, []⟩ (by decide)).2.1

theorem default_ttl_c4_amended_witness :
    defaultConfigManager.defaultTTL = UnifiedCacheManager.defaultTTLConfig ∧
    defaultConfigManager.getTTL "market_data" = 300 := by
  exact ⟨rfl, (default_ttl_c4_amended defaultConfigManager rfl).1⟩

theorem retry_delay_c5_witness :
    calculateDelay ⟨3, RetryStrategy.exponentialBackoff, 1, 60, false, 2⟩ 3 0 =
      min (specDelayFormula ⟨3, RetryStrategy.exponentialBackoff, 1, 60, false, 2⟩ 3)
        (⟨3, RetryStrategy.exponentialBackoff, 1, 60, false, 2⟩ : RetryConfig).maxDelay *
        (if (⟨3, RetryStrategy.exponentialBackoff, 1, 60, false, 2⟩ : RetryConfig).jitter
          then 1 / 2 + 0 * (1 / 2) else 1) := by
  exact (retry_delay_c5 ⟨3, RetryStrategy.exponentialBackoff, 1, 60, false, 2⟩ 3 0
    (by decide) zero_le_one (by decide) (by decide) (le_refl 0) zero_lt_one).1

theorem parallel_merge_c6_witness :
    (mergeAnalystResults (⟨[10, 20], fun _ => none⟩ : MergeState Nat)
        [("market", some ⟨some [30],
          [("market_report", "up"), ("sender", "Market Analyst")]⟩)]).messages =
      [10, 20] ++
        (([("market", some (⟨some [30],
            [("market_report", "up"), ("sender", "Market Analyst")]⟩ :
              AnalystResult Nat))]).map resultMessages).flatten := by
  exact (parallel_merge_c6 (⟨[10, 20], fun _ => none⟩ : MergeState Nat)
    [("market", some ⟨some [30],
      [("market_report", "up"), ("sender", "Market Analyst")]⟩)]
    (by
      intro rr hrr r hr
      simp only [List.mem_singleton] at hrr
      subst hrr
      cases hr
      decide)).1

theorem append_only_messages_c7_amended_witness :
    applyMessageOps [⟨1, "a"⟩]
        ([((2 : Nat), "x"), (3, "y")].map (fun p => MessageOp.addMsg p.1 p.2)) =
      [⟨1, "a"⟩] ++ [((2 : Nat), "x"), (3, "y")].map (fun p => ⟨p.1, p.2⟩) ∧
    applyMessageOps [⟨1, "a"⟩] (deleteMessagesUpdate [⟨1, "a"⟩] 9) =
      [⟨9, "Continue"⟩] := by
  exact append_only_messages_c7_amended [⟨1, "a"⟩] [(2, "x"), (3, "y")] 9
    (by decide) (by decide)

